import Mathlib

/-!
cryptoPAN: a shallow embedding of `cryptopan.go`.

The Go package keeps a `CryptoPAn` engine (a keyed AES-256 block cipher and a
32-bit pad prefix) and anonymizes IPv4 / IPv6 addresses bit by bit.

Conventions of the embedding:

* a byte is a `Fin 256`; a Go byte slice (`[]byte`, `net.IP`) is a `List Byte`;
* `uint32` / `uint64` values are natural numbers, reduced `% 2^32` / `% 2^64`
  wherever Go truncates;
* `math/big.Int` values (never negative in this program) are natural numbers;
* a Go function returning `(value, error)` returns an `Except String value`;
* `NewCryptoPAn` writes into the caller's key buffer, so it also returns the
  contents of that buffer after the call.

The Go standard library functions the program calls (`aes.NewCipher`,
`cipher.Block.Encrypt`, `net.IP.To4`, `net.IP.To16`, `encoding/binary`,
`math/big`) are embedded from their documented behaviour; AES follows FIPS-197.
-/

namespace CryptoPAN

/-! ## Bytes and fixed-width integers -/

/-- A byte. -/
abbrev Byte := Fin 256

/-- Go conversion `byte(x)` of an unsigned integer: keep the low 8 bits. -/
def toByte (n : Nat) : Byte := ⟨n % 256, Nat.mod_lt n (by decide)⟩

/-- Go `make([]byte, n)`: `n` zero bytes. -/
def zeroBytes (n : Nat) : List Byte := List.replicate n 0

/-- Go builtin `copy(dst, src)`: overwrite the first `min (len dst) (len src)`
bytes of `dst` by those of `src`; the length of `dst` does not change. -/
def copyInto (dst src : List Byte) : List Byte :=
  src.take dst.length ++ dst.drop src.length

/-- Big-endian value of a byte string (`big.Int.SetBytes`; on 4 bytes this is
`binary.BigEndian.Uint32`). -/
def beValue (bs : List Byte) : Nat :=
  bs.foldl (fun acc b => acc * 256 + b.val) 0

/-- The function `binary.BigEndian.Uint32` on the first four bytes of `b`. -/
def Uint32 (b : List Byte) : Nat :=
  (b.getD 3 0).val ||| ((b.getD 2 0).val <<< 8) ||| ((b.getD 1 0).val <<< 16)
    ||| ((b.getD 0 0).val <<< 24)

/-- The four bytes `binary.BigEndian.PutUint32` writes for the `uint32` `v`. -/
def PutUint32 (v : Nat) : List Byte :=
  [toByte (v >>> 24), toByte (v >>> 16), toByte (v >>> 8), toByte v]

/-- The eight bytes `binary.BigEndian.PutUint64` writes for the `uint64` `v`. -/
def PutUint64 (v : Nat) : List Byte :=
  [toByte (v >>> 56), toByte (v >>> 48), toByte (v >>> 40), toByte (v >>> 32),
   toByte (v >>> 24), toByte (v >>> 16), toByte (v >>> 8), toByte v]

/-! ## AES (FIPS-197), the block cipher behind `crypto/aes` -/

namespace AES

/-- The AES S-box. -/
def sboxTable : List Nat :=
  [0x63, 0x7c, 0x77, 0x7b, 0xf2, 0x6b, 0x6f, 0xc5, 0x30, 0x01, 0x67, 0x2b, 0xfe, 0xd7, 0xab, 0x76,
   0xca, 0x82, 0xc9, 0x7d, 0xfa, 0x59, 0x47, 0xf0, 0xad, 0xd4, 0xa2, 0xaf, 0x9c, 0xa4, 0x72, 0xc0,
   0xb7, 0xfd, 0x93, 0x26, 0x36, 0x3f, 0xf7, 0xcc, 0x34, 0xa5, 0xe5, 0xf1, 0x71, 0xd8, 0x31, 0x15,
   0x04, 0xc7, 0x23, 0xc3, 0x18, 0x96, 0x05, 0x9a, 0x07, 0x12, 0x80, 0xe2, 0xeb, 0x27, 0xb2, 0x75,
   0x09, 0x83, 0x2c, 0x1a, 0x1b, 0x6e, 0x5a, 0xa0, 0x52, 0x3b, 0xd6, 0xb3, 0x29, 0xe3, 0x2f, 0x84,
   0x53, 0xd1, 0x00, 0xed, 0x20, 0xfc, 0xb1, 0x5b, 0x6a, 0xcb, 0xbe, 0x39, 0x4a, 0x4c, 0x58, 0xcf,
   0xd0, 0xef, 0xaa, 0xfb, 0x43, 0x4d, 0x33, 0x85, 0x45, 0xf9, 0x02, 0x7f, 0x50, 0x3c, 0x9f, 0xa8,
   0x51, 0xa3, 0x40, 0x8f, 0x92, 0x9d, 0x38, 0xf5, 0xbc, 0xb6, 0xda, 0x21, 0x10, 0xff, 0xf3, 0xd2,
   0xcd, 0x0c, 0x13, 0xec, 0x5f, 0x97, 0x44, 0x17, 0xc4, 0xa7, 0x7e, 0x3d, 0x64, 0x5d, 0x19, 0x73,
   0x60, 0x81, 0x4f, 0xdc, 0x22, 0x2a, 0x90, 0x88, 0x46, 0xee, 0xb8, 0x14, 0xde, 0x5e, 0x0b, 0xdb,
   0xe0, 0x32, 0x3a, 0x0a, 0x49, 0x06, 0x24, 0x5c, 0xc2, 0xd3, 0xac, 0x62, 0x91, 0x95, 0xe4, 0x79,
   0xe7, 0xc8, 0x37, 0x6d, 0x8d, 0xd5, 0x4e, 0xa9, 0x6c, 0x56, 0xf4, 0xea, 0x65, 0x7a, 0xae, 0x08,
   0xba, 0x78, 0x25, 0x2e, 0x1c, 0xa6, 0xb4, 0xc6, 0xe8, 0xdd, 0x74, 0x1f, 0x4b, 0xbd, 0x8b, 0x8a,
   0x70, 0x3e, 0xb5, 0x66, 0x48, 0x03, 0xf6, 0x0e, 0x61, 0x35, 0x57, 0xb9, 0x86, 0xc1, 0x1d, 0x9e,
   0xe1, 0xf8, 0x98, 0x11, 0x69, 0xd9, 0x8e, 0x94, 0x9b, 0x1e, 0x87, 0xe9, 0xce, 0x55, 0x28, 0xdf,
   0x8c, 0xa1, 0x89, 0x0d, 0xbf, 0xe6, 0x42, 0x68, 0x41, 0x99, 0x2d, 0x0f, 0xb0, 0x54, 0xbb, 0x16]

/-- The S-box as one number: entry `b` of `sboxTable` is byte `b`, counted
from the least significant end, of `sboxPacked`. -/
def sboxPacked : Nat := sboxTable.foldr (fun e acc => acc * 256 + e) 0

/-- S-box substitution of one byte value: entry `b` of `sboxTable`. -/
def sbox (b : Nat) : Nat := (sboxPacked >>> (8 * b)) % 256

/-- Multiplication by `x` in GF(2^8) modulo `x^8 + x^4 + x^3 + x + 1`. -/
def xtime (b : Nat) : Nat :=
  if b < 128 then b <<< 1 else ((b <<< 1) % 256) ^^^ 0x1b

/-- `SubWord`: the S-box on each byte of a 32-bit word. -/
def subWord (w : Nat) : Nat :=
  (sbox ((w >>> 24) % 256) <<< 24) ||| (sbox ((w >>> 16) % 256) <<< 16)
    ||| (sbox ((w >>> 8) % 256) <<< 8) ||| sbox (w % 256)

/-- `RotWord`: rotate a 32-bit word left by one byte. -/
def rotWord (w : Nat) : Nat := ((w <<< 8) % 4294967296) ||| (w >>> 24)

/-- One step of `KeyExpansion` for a key of `nk` words. The `i` words found
so far are kept as one big-endian number `ws` (32 bits each, word `i - 1` is
the least significant), `rc` is the current round constant; the step appends
word `i`. -/
def expandStep (nk : Nat) (st : Nat × Nat) (i : Nat) : Nat × Nat :=
  let ws := st.1
  let rc := st.2
  let prev := ws % 4294967296
  let back := (ws >>> (32 * (nk - 1))) % 4294967296
  if i % nk = 0 then
    ((ws <<< 32) ||| (back ^^^ (subWord (rotWord prev) ^^^ (rc <<< 24))), xtime rc)
  else if 6 < nk ∧ i % nk = 4 then
    ((ws <<< 32) ||| (back ^^^ subWord prev), rc)
  else
    ((ws <<< 32) ||| (back ^^^ prev), rc)

/-- `KeyExpansion`: from the key (`nk` words, as one big-endian number) to the
`4 * (nk + 7)` round-key words, as one big-endian number. -/
def expandKey (nk key : Nat) : Nat :=
  ((List.range (4 * (nk + 7) - nk)).foldl
    (fun st j => expandStep nk st (nk + j)) (key, 1)).1

/-- Round key `r` of `nr + 1`: words `4 r` to `4 r + 3` of the expanded key. -/
def roundKey (w nr r : Nat) : Nat :=
  (w >>> (128 * (nr - r))) % 340282366920938463463374607431768211456

/-- Byte `i` of the state. The state is the 128-bit big-endian number of its
16 bytes taken column by column, as the input block is laid out. -/
def stateByte (s i : Nat) : Nat := (s >>> (8 * (15 - i))) % 256

/-- The state whose byte `i` is `f i`. -/
def pack (f : Nat → Nat) : Nat :=
  (List.range 16).foldl (fun acc i => acc * 256 + f i) 0

/-- `AddRoundKey`. -/
def addRoundKey (w nr r s : Nat) : Nat := s ^^^ roundKey w nr r

/-- `SubBytes`. -/
def subBytes (s : Nat) : Nat := pack (fun i => sbox (stateByte s i))

/-- `ShiftRows`: row `r` is rotated left by `r` columns, so the new byte
`i = r + 4 c` is the old byte `r + 4 ((c + r) % 4) = 5 i % 16`. -/
def shiftRows (s : Nat) : Nat := pack (fun i => stateByte s (5 * i % 16))

/-- `MixColumns`: with `a 0 .. a 3` the column of byte `i` read from the row of
`i` downwards (cyclically), the new byte is `2 a0 + 3 a1 + a2 + a3` in
GF(2^8). -/
def mixColumns (s : Nat) : Nat :=
  pack (fun i =>
    let a := fun k => stateByte s (4 * (i / 4) + (i + k) % 4)
    xtime (a 0) ^^^ (xtime (a 1) ^^^ a 1) ^^^ a 2 ^^^ a 3)

/-- The cipher of FIPS-197 on one block, under the expanded key `w` with `nr`
rounds. -/
def cipher (w nr block : Nat) : Nat :=
  let s := addRoundKey w nr 0 block
  let s := (List.range (nr - 1)).foldl
    (fun s j => addRoundKey w nr (j + 1) (mixColumns (shiftRows (subBytes s)))) s
  addRoundKey w nr nr (shiftRows (subBytes s))

/-- Encryption of the first 16 bytes of `src` under `key` (16, 24 or 32
bytes): what `Encrypt` of the block returned by `aes.NewCipher key` computes. -/
def encryptBlock (key : List Byte) (src : List Byte) : List Byte :=
  let nk := key.length / 4
  let s := cipher (expandKey nk (beValue key)) (nk + 6) (beValue (src.take 16))
  (List.range 16).map (fun i => toByte (stateByte s i))

end AES

/-! ## The parts of `crypto/aes`, `crypto/cipher`, `net` and `math/big` in use -/

/-- A `cipher.Block` with block size 16, seen as the function from the source
block to the encrypted block. -/
abbrev Block := List Byte → List Byte

/-- The call `b.Encrypt(dst, src)`: the first 16 bytes of `src` are encrypted
into the first 16 bytes of `dst`; the result is the new content of `dst`. -/
def Block.Encrypt (b : Block) (dst src : List Byte) : List Byte :=
  copyInto dst ((b (src.take 16)).take 16)

/-- The function `aes.NewCipher`: a key of 16, 24 or 32 bytes selects AES-128,
AES-192 or AES-256; any other length is a `KeySizeError`. -/
def NewCipher (key : List Byte) : Except String Block :=
  if key.length = 16 ∨ key.length = 24 ∨ key.length = 32 then
    .ok (AES.encryptBlock key)
  else
    .error "crypto/aes: invalid key size"

/-- Content of `buf` after writing the bytes `bs` at offset `off` (a write
through a sub-slice `buf[off:]` of the same backing array). -/
def writeAt (buf : List Byte) (off : Nat) (bs : List Byte) : List Byte :=
  buf.take off ++ bs ++ buf.drop (off + bs.length)

/-- The helper `isZeros` of package `net`. -/
def isZeros (p : List Byte) : Bool := p.all (fun b => b == 0)

/-- The method `net.IP.To4`: a 4-byte address is returned as it is, a 16-byte
IPv4-mapped address (`::ffff:a.b.c.d`) gives its last four bytes, anything else
gives `nil`. -/
def To4 (ip : List Byte) : Option (List Byte) :=
  if ip.length = 4 then some ip
  else if ip.length = 16 ∧ isZeros (ip.take 10) = true ∧ ip.getD 10 0 = 0xff
      ∧ ip.getD 11 0 = 0xff then
    some (ip.drop 12)
  else none

/-- The function `net.IPv4`: the 16-byte IPv4-mapped form of `a.b.c.d`. -/
def IPv4 (a b c d : Byte) : List Byte :=
  [0, 0, 0, 0, 0, 0, 0, 0, 0, 0, 0xff, 0xff, a, b, c, d]

/-- The method `net.IP.To16`: a 4-byte address is widened to its IPv4-mapped
form, a 16-byte address is returned as it is, anything else gives `nil`. -/
def To16 (ip : List Byte) : Option (List Byte) :=
  if ip.length = 4 then
    some (IPv4 (ip.getD 0 0) (ip.getD 1 0) (ip.getD 2 0) (ip.getD 3 0))
  else if ip.length = 16 then some ip
  else none

namespace big

/-- The method `z.SetBytes(buf)`: the big-endian unsigned value of `buf`. -/
def SetBytes (buf : List Byte) : Nat := beValue buf

/-- The method `z.Lsh(x, n)`: the receiver `z` becomes `x << n` and is
returned; its previous value plays no part. -/
def Lsh (_z x n : Nat) : Nat := x <<< n

/-- The method `z.Rsh(x, n)`: the receiver `z` becomes `x >> n` and is
returned; its previous value plays no part. -/
def Rsh (_z x n : Nat) : Nat := x >>> n

/-- The method `z.Or(x, y)`: the receiver `z` becomes `x | y` and is returned;
its previous value plays no part. -/
def Or (_z x y : Nat) : Nat := x ||| y

/-- The method `x.Uint64()`: the low 64 bits of `x`. -/
def Uint64 (x : Nat) : Nat := x % 18446744073709551616

/-- The method `z.SetBit(x, i, b)` for `b` equal to 0 or 1: `x` with bit `i`
set to `b`, that is, bit `i` of `x` is cleared and `b` is put in its place. -/
def SetBit (x i b : Nat) : Nat :=
  (x ^^^ (x &&& (1 <<< i))) ||| (b <<< i)

/-- The loop behind `Bytes`: the bytes of `x`, least significant first, are
put in front of `acc` until nothing is left of `x`; `fuel` bounds the number
of turns. -/
def bytesLoop : Nat → Nat → List Byte → List Byte
  | 0, _, acc => acc
  | fuel + 1, x, acc => if x = 0 then acc else bytesLoop fuel (x / 256) (toByte x :: acc)

/-- The method `x.Bytes()`: the big-endian bytes of `x` without leading zero
bytes (no byte at all for 0). The number `x` has at most `x` bytes, so `x`
turns of the loop are enough (`big.beValue_Bytes`). -/
def Bytes (x : Nat) : List Byte := bytesLoop x x []

end big

/-! ## `cryptopan.go` -/

/-- The struct `CryptoPAn`. The slices `key` and `secretPad` are views of the
caller's key buffer; the fields hold their content when `NewCryptoPAn`
returns. `first4bytes` is a `uint32`, `first4bytes2` a `uint64`. -/
structure CryptoPAn where
  key : List Byte
  secretPad : List Byte
  first4bytes : Nat
  first4bytes2 : Nat
  rijndael : Block

/-- The bounds the Go types put on the integer fields of an engine:
`first4bytes` is a `uint32` and `first4bytes2` a `uint64`. -/
def CryptoPAn.WellFormed (cp : CryptoPAn) : Prop :=
  cp.first4bytes < 4294967296 ∧ cp.first4bytes2 < 18446744073709551616

/-- The function `NewCryptoPAn`. The second component is the content of the
caller's buffer `key` when the function returns: `secretPad` is the sub-slice
`key[32:64]`, so the in-place `block.Encrypt(secretPad, secretPad)` writes
through to bytes 32..47 of that buffer. -/
def NewCryptoPAn (key : List Byte) : Except String CryptoPAn × List Byte :=
  if key.length ≠ 64 then
    (.error "invalid key length, it should be 64 bytes", key)
  else
    let rijndaelKey := key.take 32
    let secretPad := (key.take 64).drop 32
    match NewCipher rijndaelKey with
    | .error err => (.error err, key)
    | .ok block =>
      let secretPad := block.Encrypt secretPad secretPad
      let key := writeAt key 32 secretPad
      let first4bytes := Uint32 secretPad
      (.ok { key := key, secretPad := secretPad, first4bytes := first4bytes,
             first4bytes2 := 0, rijndael := block }, key)

/-- One turn of the loop of `AnonymizeIPv4`: the value of the `uint32`
variable `result` after the turn for `position`. -/
def ipv4Step (cp : CryptoPAn) (result position : Nat) : Nat :=
  let input := zeroBytes 16
  let input := input.set 0 (toByte (cp.first4bytes >>> 24))
  let shiftedInput :=
    ((result <<< position) ||| (cp.first4bytes >>> (32 - position))) % 4294967296
  let input := writeAt input 1 (PutUint32 shiftedInput)
  let input := cp.rijndael.Encrypt input input
  let anonymizedBit := ((input.getD 0 0).val >>> 7) &&& 1
  (result ||| (anonymizedBit <<< (31 - position))) % 4294967296

/-- The method `AnonymizeIPv4`. -/
def AnonymizeIPv4 (cp : CryptoPAn) (ip : List Byte) : Except String (List Byte) :=
  match To4 ip with
  | none => .error "invalid IPv4 address"
  | some ipBytes =>
    let result := Uint32 ipBytes
    let result := (List.range 32).foldl (ipv4Step cp) result
    let anonymizedIP := zeroBytes 4
    .ok (writeAt anonymizedIP 0 (PutUint32 result))

/-- One turn of the loop of `AnonymizeIPv6`: the value of the `big.Int`
variable `result` after the turn for `position`. -/
def ipv6Step (cp : CryptoPAn) (result position : Nat) : Nat :=
  let secretPadBigInt := cp.first4bytes
  let input := zeroBytes 16
  let input := input.set 0 (toByte (cp.first4bytes >>> 24))
  let shiftedInput :=
    big.Or (big.Lsh 0 result position) result (big.Rsh 0 secretPadBigInt (128 - position))
  let input := writeAt input 8 (PutUint64 (big.Uint64 shiftedInput))
  let input := cp.rijndael.Encrypt input input
  let anonymizedBit := ((input.getD 0 0).val >>> 7) &&& 1
  big.SetBit result (127 - position) anonymizedBit

/-- The method `AnonymizeIPv6`. -/
def AnonymizeIPv6 (cp : CryptoPAn) (ip : List Byte) : Except String (List Byte) :=
  match To16 ip with
  | none => .error "invalid IPv6 address"
  | some ipBytes =>
    let result := big.SetBytes ipBytes
    let result := (List.range 128).foldl (ipv6Step cp) result
    let anonymizedIP := zeroBytes 16
    .ok (copyInto anonymizedIP (big.Bytes result))

/-- The method `Anonymize`. -/
def Anonymize (cp : CryptoPAn) (ip : List Byte) : Except String (List Byte) :=
  if To4 ip = none then
    AnonymizeIPv6 cp ip
  else
    AnonymizeIPv4 cp ip

/-- The key of the repository's tests: the byte `'a'` 64 times. -/
def testKey : List Byte := List.replicate 64 0x61


/-- The test helper `initCP`: the engine built from the test key. -/
def initCP : Except String CryptoPAn := (NewCryptoPAn testKey).1

/-- The engine of the tests (the one `initCP` returns); should the construction
fail, which it does not (`initCP_eq`), an engine with empty buffers and the
identity as cipher. -/
def testEngine : CryptoPAn :=
  match initCP with
  | .ok cp => cp
  | .error _ => ⟨[], [], 0, 0, id⟩

/-- A 16-byte IPv4-mapped address: ten zero bytes, `0xFF 0xFF`, four address
bytes. -/
def IsIPv4Mapped (ip : List Byte) : Prop :=
  ∃ a b c d : Byte, ip = [0, 0, 0, 0, 0, 0, 0, 0, 0, 0, 0xff, 0xff, a, b, c, d]

/-- Bit `p` of a byte string, counted from the most significant bit of the
first byte. -/
def bitAt (bs : List Byte) (p : Nat) : Bool := (bs.getD (p / 8) 0).val.testBit (7 - p % 8)

/-- The byte strings `a` and `b` have the same first `k` bits. -/
def SharePrefix (k : Nat) (a b : List Byte) : Prop := ∀ p, p < k → bitAt a p = bitAt b p

instance (k : Nat) (a b : List Byte) : Decidable (SharePrefix k a b) :=
  inferInstanceAs (Decidable (∀ p, p < k → bitAt a p = bitAt b p))

deriving instance DecidableEq for Except

/-- The bit both loops take from the cipher: the block `input` is encrypted in
place (`cp.rijndael.Encrypt(input, input)`) and the most significant bit of
its first byte is kept (`(input[0] >> 7) & 1`). -/
def cipherBit (block : Block) (input : List Byte) : Nat :=
  (((block.Encrypt input input).getD 0 0).val >>> 7) &&& 1

/-- The block `input` that `AnonymizeIPv4` hands to the cipher in the turn for
`position`, when the variable `result` holds `result` and the engine has the
given `first4bytes`. -/
def ipv4Input (first4bytes result position : Nat) : List Byte :=
  let input := zeroBytes 16
  let input := input.set 0 (toByte (first4bytes >>> 24))
  let shiftedInput :=
    ((result <<< position) ||| (first4bytes >>> (32 - position))) % 4294967296
  writeAt input 1 (PutUint32 shiftedInput)

/-- The block `input` that `AnonymizeIPv6` hands to the cipher in the turn for
`position`, when the variable `result` holds `result` and the engine has the
given `first4bytes`. -/
def ipv6Input (first4bytes result position : Nat) : List Byte :=
  let secretPadBigInt := first4bytes
  let input := zeroBytes 16
  let input := input.set 0 (toByte (first4bytes >>> 24))
  let shiftedInput :=
    big.Or (big.Lsh 0 result position) result (big.Rsh 0 secretPadBigInt (128 - position))
  writeAt input 8 (PutUint64 (big.Uint64 shiftedInput))

/-- The variable `result` of `AnonymizeIPv4` after the turns for the positions
below `n`, started from `a`. -/
def ipv4Loop (cp : CryptoPAn) (a n : Nat) : Nat := (List.range n).foldl (ipv4Step cp) a

/-- The variable `result` of `AnonymizeIPv6` after the turns for the positions
below `n`, started from `a`. -/
def ipv6Loop (cp : CryptoPAn) (a n : Nat) : Nat := (List.range n).foldl (ipv6Step cp) a

/-- The IPv4 address of the repository's tests, 3.168.10.154, in the 16-byte
form `net.ParseIP` returns. -/
def testAddr4 : List Byte := [0, 0, 0, 0, 0, 0, 0, 0, 0, 0, 0xff, 0xff, 3, 168, 10, 154]

/-- The IPv6 address of the repository's tests, 2001:db8::5555:6666:7777:8888. -/
def testAddr6 : List Byte :=
  [0x20, 0x01, 0x0d, 0xb8, 0, 0, 0, 0, 0x55, 0x55, 0x66, 0x66, 0x77, 0x77, 0x88, 0x88]

/-- The 16-byte big-endian encoding of a 128-bit register, in the words of the
specification: byte `i` holds the bits `127 - 8 i` down to `120 - 8 i`, leading
zero bytes included. -/
def bigEndian16 (x : Nat) : List Byte :=
  (List.range 16).map (fun i => toByte (x >>> (120 - 8 * i)))

/-- The cipher input block of `AnonymizeIPv6` in the words of the
specification: the top byte of `pad_prefix`, seven zero bytes, then the
big-endian low 64 bits of `(register << p) | (pad_prefix >> (128 - p))`. -/
def ipv6InputClaimed (first4bytes result position : Nat) : List Byte :=
  toByte (first4bytes >>> 24) :: zeroBytes 7
    ++ PutUint64 (((result <<< position) ||| (first4bytes >>> (128 - position)))
        % 18446744073709551616)

/-! ## The methods on Go memory -/

/-- A Go slice header: the allocation (backing array) it points into, the
offset of its first element in that allocation, and its length. -/
structure Slice where
  blk : Nat
  off : Nat
  len : Nat
deriving DecidableEq

/-- Go memory as far as the methods use it: the allocations made so far, in
the order they were made, each with the bytes it holds. -/
structure Heap where
  blocks : List (List Byte)

/-- The bytes a slice shows: `len` bytes from offset `off` of its
allocation. -/
def Heap.read (h : Heap) (s : Slice) : List Byte :=
  ((h.blocks.getD s.blk []).drop s.off).take s.len

/-- Memory after the bytes `bs` are written through the slice `s` from its
index `i` on (`s[i] = b`, `PutUint32(s[i:], v)`): the write lands in the
allocation of `s`, at offset `s.off + i`. -/
def Heap.store (h : Heap) (s : Slice) (i : Nat) (bs : List Byte) : Heap :=
  ⟨h.blocks.set s.blk (writeAt (h.blocks.getD s.blk []) (s.off + i) bs)⟩

/-- Go `make([]byte, n)`: a new allocation of `n` zero bytes, and the slice
over all of it. -/
def Heap.make (h : Heap) (n : Nat) : Slice × Heap :=
  (⟨h.blocks.length, 0, n⟩, ⟨h.blocks ++ [zeroBytes n]⟩)

/-- Go builtin `copy(dst, src)` on memory: the first `min (len dst) (len src)`
bytes of `src` are written to the front of `dst`. -/
def Heap.copy (h : Heap) (dst : Slice) (src : List Byte) : Heap :=
  h.store dst 0 (src.take dst.len)

/-- The slice lies within an allocation that exists. -/
def Heap.Valid (h : Heap) (s : Slice) : Prop :=
  s.blk < h.blocks.length ∧ s.off + s.len ≤ (h.blocks.getD s.blk []).length

/-- The struct `CryptoPAn` as it lies in memory: `key` and `secretPad` are
slice headers, the cipher is the function its `Encrypt` computes. -/
structure Engine where
  key : Slice
  secretPad : Slice
  first4bytes : Nat
  first4bytes2 : Nat
  rijndael : Block

/-- The state a method call runs on: the memory and the engine `*cp` the
receiver points to. -/
structure State where
  heap : Heap
  cp : Engine

/-- The engine of a state with its two slices read out of memory. -/
def State.engine (s : State) : CryptoPAn :=
  { key := s.heap.read s.cp.key, secretPad := s.heap.read s.cp.secretPad,
    first4bytes := s.cp.first4bytes, first4bytes2 := s.cp.first4bytes2,
    rijndael := s.cp.rijndael }

/-- The call `b.Encrypt(dst, src)` on memory: the first 16 bytes of `src` are
read and their encryption is written to the front of `dst`. -/
def EncryptM (b : Block) (h : Heap) (dst src : Slice) : Heap :=
  h.copy dst ((b ((h.read src).take 16)).take 16)

/-- The method `net.IP.To4` on memory: the slice itself for 4 bytes, the
sub-slice `ip[12:16]` for a 16-byte IPv4-mapped address, `nil` otherwise.
Memory is only read. -/
def To4M (h : Heap) (ip : Slice) : Option Slice :=
  if ip.len = 4 then some ip
  else if ip.len = 16 ∧ isZeros ((h.read ip).take 10) = true ∧ (h.read ip).getD 10 0 = 0xff
      ∧ (h.read ip).getD 11 0 = 0xff then
    some ⟨ip.blk, ip.off + 12, 4⟩
  else none

/-- The function `net.IPv4` on memory: `p := make(IP, 16)`, the prefix
`00 .. 00 ff ff` is copied to its front and `p[12] .. p[15]` are assigned. -/
def IPv4M (h : Heap) (a b c d : Byte) : Slice × Heap :=
  let p := (h.make 16).1
  let h := (h.make 16).2
  let h := h.copy p [0, 0, 0, 0, 0, 0, 0, 0, 0, 0, 0xff, 0xff]
  let h := h.store p 12 [a]
  let h := h.store p 13 [b]
  let h := h.store p 14 [c]
  let h := h.store p 15 [d]
  (p, h)

/-- The method `net.IP.To16` on memory: a 4-byte address is widened into a new
allocation, a 16-byte slice is returned as it is, anything else gives `nil`. -/
def To16M (h : Heap) (ip : Slice) : Option Slice × Heap :=
  if ip.len = 4 then
    let r := h.read ip
    let ph := IPv4M h (r.getD 0 0) (r.getD 1 0) (r.getD 2 0) (r.getD 3 0)
    (some ph.1, ph.2)
  else if ip.len = 16 then (some ip, h)
  else (none, h)

/-- One turn of the loop of `AnonymizeIPv4` on memory: the state and the
variable `result` after the turn for `position`. The block `input` is a new
allocation; the engine is read (`first4bytes`, `rijndael`), never assigned. -/
def ipv4TurnM (st : State × Nat) (position : Nat) : State × Nat :=
  let s := st.1
  let result := st.2
  let input := (s.heap.make 16).1
  let heap := (s.heap.make 16).2
  let heap := heap.store input 0 [toByte (s.cp.first4bytes >>> 24)]
  let shiftedInput :=
    ((result <<< position) ||| (s.cp.first4bytes >>> (32 - position))) % 4294967296
  let heap := heap.store input 1 (PutUint32 shiftedInput)
  let heap := EncryptM s.cp.rijndael heap input input
  let anonymizedBit := (((heap.read input).getD 0 0).val >>> 7) &&& 1
  ({ s with heap := heap }, (result ||| (anonymizedBit <<< (31 - position))) % 4294967296)

/-- The method `AnonymizeIPv4` on memory: the result (a slice in the final
memory, or an error) and the state after the call. -/
def AnonymizeIPv4M (s : State) (ip : Slice) : Except String Slice × State :=
  match To4M s.heap ip with
  | none => (.error "invalid IPv4 address", s)
  | some ipBytes =>
    let result := Uint32 (s.heap.read ipBytes)
    let st := (List.range 32).foldl ipv4TurnM (s, result)
    let anonymizedIP := (st.1.heap.make 4).1
    let heap := (st.1.heap.make 4).2
    let heap := heap.store anonymizedIP 0 (PutUint32 st.2)
    (.ok anonymizedIP, { st.1 with heap := heap })

/-- One turn of the loop of `AnonymizeIPv6` on memory. The `big.Int` values
are private to the call and kept as numbers. -/
def ipv6TurnM (st : State × Nat) (position : Nat) : State × Nat :=
  let s := st.1
  let result := st.2
  let secretPadBigInt := s.cp.first4bytes
  let input := (s.heap.make 16).1
  let heap := (s.heap.make 16).2
  let heap := heap.store input 0 [toByte (s.cp.first4bytes >>> 24)]
  let shiftedInput :=
    big.Or (big.Lsh 0 result position) result (big.Rsh 0 secretPadBigInt (128 - position))
  let heap := heap.store input 8 (PutUint64 (big.Uint64 shiftedInput))
  let heap := EncryptM s.cp.rijndael heap input input
  let anonymizedBit := (((heap.read input).getD 0 0).val >>> 7) &&& 1
  ({ s with heap := heap }, big.SetBit result (127 - position) anonymizedBit)

/-- The method `AnonymizeIPv6` on memory. -/
def AnonymizeIPv6M (s : State) (ip : Slice) : Except String Slice × State :=
  match To16M s.heap ip with
  | (none, _) => (.error "invalid IPv6 address", s)
  | (some ipBytes, heap) =>
    let result := big.SetBytes (heap.read ipBytes)
    let st := (List.range 128).foldl ipv6TurnM ({ s with heap := heap }, result)
    let anonymizedIP := (st.1.heap.make 16).1
    let heap := (st.1.heap.make 16).2
    let heap := heap.copy anonymizedIP (big.Bytes st.2)
    (.ok anonymizedIP, { st.1 with heap := heap })

/-- The method `Anonymize` on memory. -/
def AnonymizeM (s : State) (ip : Slice) : Except String Slice × State :=
  if To4M s.heap ip = none then
    AnonymizeIPv6M s ip
  else
    AnonymizeIPv4M s ip

/-- A state for the tests: allocation 0 is the key buffer as `NewCryptoPAn`
left it, allocation 1 holds the address 3.168.10.154, and the engine is the
one of the tests with its two slices pointing into the key buffer. -/
def testState : State :=
  { heap := ⟨[(NewCryptoPAn testKey).2, [3, 168, 10, 154]]⟩,
    cp := { key := ⟨0, 0, 64⟩, secretPad := ⟨0, 32, 32⟩,
            first4bytes := testEngine.first4bytes, first4bytes2 := 0,
            rijndael := testEngine.rijndael } }

/-! ## Lemmas -/

/-- FIPS-197, appendix C.1: AES-128 on the example block. -/
theorem AES.fips197_example_128 :
    AES.encryptBlock
      [0x00, 0x01, 0x02, 0x03, 0x04, 0x05, 0x06, 0x07, 0x08, 0x09, 0x0a, 0x0b, 0x0c, 0x0d,
       0x0e, 0x0f]
      [0x00, 0x11, 0x22, 0x33, 0x44, 0x55, 0x66, 0x77, 0x88, 0x99, 0xaa, 0xbb, 0xcc, 0xdd,
       0xee, 0xff]
    = [0x69, 0xc4, 0xe0, 0xd8, 0x6a, 0x7b, 0x04, 0x30, 0xd8, 0xcd, 0xb7, 0x80, 0x70, 0xb4,
       0xc5, 0x5a] := by
  decide!

/-- FIPS-197, appendix C.3: AES-256 on the example block. -/
theorem AES.fips197_example_256 :
    AES.encryptBlock
      [0x00, 0x01, 0x02, 0x03, 0x04, 0x05, 0x06, 0x07, 0x08, 0x09, 0x0a, 0x0b, 0x0c, 0x0d,
       0x0e, 0x0f, 0x10, 0x11, 0x12, 0x13, 0x14, 0x15, 0x16, 0x17, 0x18, 0x19, 0x1a, 0x1b,
       0x1c, 0x1d, 0x1e, 0x1f]
      [0x00, 0x11, 0x22, 0x33, 0x44, 0x55, 0x66, 0x77, 0x88, 0x99, 0xaa, 0xbb, 0xcc, 0xdd,
       0xee, 0xff]
    = [0x8e, 0xa2, 0xb7, 0xca, 0x51, 0x67, 0x45, 0xbf, 0xea, 0xfc, 0x49, 0x90, 0x4b, 0x49,
       0x60, 0x89] := by
  decide!

theorem foldl_beValue (l : List Byte) (a : Nat) :
    l.foldl (fun acc b => acc * 256 + b.val) a = a * 256 ^ l.length + beValue l := by
  induction l generalizing a with
  | nil => simp [beValue]
  | cons b l ih =>
    simp only [beValue, List.foldl_cons, List.length_cons] at ih ⊢
    rw [ih (a * 256 + b.val), ih (0 * 256 + b.val)]
    ring

theorem beValue_cons (b : Byte) (l : List Byte) :
    beValue (b :: l) = b.val * 256 ^ l.length + beValue l := by
  have h := foldl_beValue l (0 * 256 + b.val)
  simp only [Nat.zero_mul, Nat.zero_add] at h
  simpa [beValue] using h

theorem big.beValue_bytesLoop (fuel x : Nat) (acc : List Byte) (h : x ≤ fuel) :
    beValue (big.bytesLoop fuel x acc) = x * 256 ^ acc.length + beValue acc := by
  induction fuel generalizing x acc with
  | zero =>
    have hx : x = 0 := by omega
    simp [big.bytesLoop, hx]
  | succ fuel ih =>
    unfold big.bytesLoop
    by_cases hx : x = 0
    · simp [hx]
    · rw [if_neg hx, ih (x / 256) (toByte x :: acc) (by omega), beValue_cons]
      have hb : (toByte x).val = x % 256 := rfl
      rw [hb, List.length_cons, Nat.pow_succ]
      have hdm := Nat.div_add_mod x 256
      calc x / 256 * (256 ^ acc.length * 256) + (x % 256 * 256 ^ acc.length + beValue acc)
          = (256 * (x / 256) + x % 256) * 256 ^ acc.length + beValue acc := by ring
        _ = x * 256 ^ acc.length + beValue acc := by rw [hdm]

/-- The bytes `x.Bytes()` are a big-endian encoding of `x`: the loop of
`big.Bytes` never stops for lack of fuel. -/
theorem big.beValue_Bytes (x : Nat) : beValue (big.Bytes x) = x := by
  unfold big.Bytes
  rw [big.beValue_bytesLoop x x [] (Nat.le_refl x)]
  simp [beValue]

theorem length_copyInto (dst src : List Byte) : (copyInto dst src).length = dst.length := by
  simp only [copyInto, List.length_append, List.length_take, List.length_drop]
  omega

theorem list_of_length_16 (ip : List Byte) (h : ip.length = 16) :
    ∃ x0 x1 x2 x3 x4 x5 x6 x7 x8 x9 x10 x11 x12 x13 x14 x15 : Byte,
      ip = [x0, x1, x2, x3, x4, x5, x6, x7, x8, x9, x10, x11, x12, x13, x14, x15] := by
  match ip, h with
  | [x0, x1, x2, x3, x4, x5, x6, x7, x8, x9, x10, x11, x12, x13, x14, x15], _ =>
    exact ⟨x0, x1, x2, x3, x4, x5, x6, x7, x8, x9, x10, x11, x12, x13, x14, x15, rfl⟩

theorem list_of_length_4 (ip : List Byte) (h : ip.length = 4) :
    ∃ a b c d : Byte, ip = [a, b, c, d] := by
  match ip, h with
  | [a, b, c, d], _ => exact ⟨a, b, c, d, rfl⟩

theorem IsIPv4Mapped.length {ip : List Byte} (h : IsIPv4Mapped ip) : ip.length = 16 := by
  obtain ⟨a, b, c, d, rfl⟩ := h
  rfl

theorem To4_of_length_4 (ip : List Byte) (h : ip.length = 4) : To4 ip = some ip := by
  simp [To4, h]

theorem To4_mapped (a b c d : Byte) :
    To4 [0, 0, 0, 0, 0, 0, 0, 0, 0, 0, 0xff, 0xff, a, b, c, d] = some [a, b, c, d] := by
  simp [To4, isZeros]

theorem To4_eq_none_iff (ip : List Byte) :
    To4 ip = none ↔ ¬ (ip.length = 4 ∨ IsIPv4Mapped ip) := by
  constructor
  · intro h hc
    rcases hc with h4 | ⟨a, b, c, d, rfl⟩
    · rw [To4_of_length_4 ip h4] at h
      exact Option.noConfusion h
    · rw [To4_mapped] at h
      exact Option.noConfusion h
  · intro h
    have h4 : ip.length ≠ 4 := fun hc => h (Or.inl hc)
    unfold To4
    rw [if_neg h4]
    by_cases h16 : ip.length = 16
    · obtain ⟨x0, x1, x2, x3, x4, x5, x6, x7, x8, x9, x10, x11, x12, x13, x14, x15, rfl⟩ :=
        list_of_length_16 ip h16
      rw [if_neg]
      rintro ⟨-, hz, h10, h11⟩
      apply h
      right
      simp only [isZeros, List.take, List.all_cons, List.all_nil, Bool.and_true, Bool.and_eq_true,
        beq_iff_eq] at hz
      simp only [List.getD_cons_succ, List.getD_cons_zero] at h10 h11
      obtain ⟨e0, e1, e2, e3, e4, e5, e6, e7, e8, e9⟩ := hz
      subst e0 e1 e2 e3 e4 e5 e6 e7 e8 e9 h10 h11
      exact ⟨x12, x13, x14, x15, rfl⟩
    · rw [if_neg]
      rintro ⟨hc, -⟩
      exact h16 hc

theorem To16_eq_none_iff (ip : List Byte) :
    To16 ip = none ↔ (ip.length ≠ 4 ∧ ip.length ≠ 16) := by
  unfold To16
  by_cases h4 : ip.length = 4
  · simp [h4]
  · by_cases h16 : ip.length = 16
    · simp [h16]
    · simp [h4, h16]

theorem To16_length (ip x : List Byte) (h : To16 ip = some x) : x.length = 16 := by
  unfold To16 at h
  by_cases h4 : ip.length = 4
  · rw [if_pos h4] at h
    cases h
    rfl
  · rw [if_neg h4] at h
    by_cases h16 : ip.length = 16
    · rw [if_pos h16] at h
      cases h
      exact h16
    · rw [if_neg h16] at h
      exact Option.noConfusion h

theorem AnonymizeIPv4_of_To4 (cp : CryptoPAn) (ip x : List Byte) (h : To4 ip = some x) :
    AnonymizeIPv4 cp ip = .ok (PutUint32 ((List.range 32).foldl (ipv4Step cp) (Uint32 x))) := by
  simp [AnonymizeIPv4, h, writeAt, zeroBytes, PutUint32]

theorem AnonymizeIPv4_of_none (cp : CryptoPAn) (ip : List Byte) (h : To4 ip = none) :
    AnonymizeIPv4 cp ip = .error "invalid IPv4 address" := by
  simp [AnonymizeIPv4, h]

theorem AnonymizeIPv6_of_To16 (cp : CryptoPAn) (ip x : List Byte) (h : To16 ip = some x) :
    AnonymizeIPv6 cp ip = .ok (copyInto (zeroBytes 16)
      (big.Bytes ((List.range 128).foldl (ipv6Step cp) (big.SetBytes x)))) := by
  simp [AnonymizeIPv6, h]

theorem AnonymizeIPv6_of_none (cp : CryptoPAn) (ip : List Byte) (h : To16 ip = none) :
    AnonymizeIPv6 cp ip = .error "invalid IPv6 address" := by
  simp [AnonymizeIPv6, h]

theorem AnonymizeIPv4_ok_length (cp : CryptoPAn) (ip out : List Byte)
    (h : AnonymizeIPv4 cp ip = .ok out) : out.length = 4 := by
  cases h4 : To4 ip with
  | none => rw [AnonymizeIPv4_of_none cp ip h4] at h; cases h
  | some x =>
    rw [AnonymizeIPv4_of_To4 cp ip x h4] at h
    cases h
    rfl

theorem AnonymizeIPv6_ok_length (cp : CryptoPAn) (ip out : List Byte)
    (h : AnonymizeIPv6 cp ip = .ok out) : out.length = 16 := by
  cases h16 : To16 ip with
  | none => rw [AnonymizeIPv6_of_none cp ip h16] at h; cases h
  | some x =>
    rw [AnonymizeIPv6_of_To16 cp ip x h16] at h
    cases h
    rw [length_copyInto]
    rfl

theorem To4_isSome_iff (ip : List Byte) :
    (∃ x, To4 ip = some x) ↔ (ip.length = 4 ∨ IsIPv4Mapped ip) := by
  rw [← not_iff_not, ← To4_eq_none_iff]
  cases To4 ip <;> simp

theorem NewCipher_of_length_32 (k : List Byte) (h : k.length = 32) :
    NewCipher k = .ok (AES.encryptBlock k) := by
  simp [NewCipher, h]

theorem length_encryptBlock (k src : List Byte) : (AES.encryptBlock k src).length = 16 := by
  simp [AES.encryptBlock]

theorem NewCryptoPAn_of_length_64 (key : List Byte) (h : key.length = 64) :
    NewCryptoPAn key =
      (.ok { key := key.take 32 ++ AES.encryptBlock (key.take 32) ((key.drop 32).take 16)
                      ++ key.drop 48
             secretPad := AES.encryptBlock (key.take 32) ((key.drop 32).take 16) ++ key.drop 48
             first4bytes :=
               Uint32 (AES.encryptBlock (key.take 32) ((key.drop 32).take 16) ++ key.drop 48)
             first4bytes2 := 0
             rijndael := AES.encryptBlock (key.take 32) },
       key.take 32 ++ AES.encryptBlock (key.take 32) ((key.drop 32).take 16) ++ key.drop 48) := by
  have hk : NewCipher (key.take 32) = .ok (AES.encryptBlock (key.take 32)) :=
    NewCipher_of_length_32 _ (by simp [h])
  have htake : key.take 64 = key := List.take_of_length_le (by omega)
  have hdrop : key.drop 64 = [] := List.drop_of_length_le (by omega)
  have henc : Block.Encrypt (AES.encryptBlock (key.take 32)) (key.drop 32) (key.drop 32)
      = AES.encryptBlock (key.take 32) ((key.drop 32).take 16) ++ key.drop 48 := by
    simp only [Block.Encrypt, copyInto, List.length_take, length_encryptBlock, List.length_drop,
      h, List.drop_drop]
    rw [List.take_of_length_le (by simp [length_encryptBlock]),
      List.take_of_length_le (by simp [length_encryptBlock])]
    rfl
  have hlen : (AES.encryptBlock (key.take 32) ((key.drop 32).take 16) ++ key.drop 48).length
      = 32 := by
    simp [length_encryptBlock, h]
  unfold NewCryptoPAn
  rw [if_neg (by simp [h])]
  simp only [hk, htake, henc, writeAt, hlen, hdrop, List.append_nil, List.append_assoc]

theorem or_shift_eq_add (hi lo i : Nat) (h : lo < 2 ^ i) : lo ||| (hi <<< i) = hi * 2 ^ i + lo := by
  rw [Nat.or_comm, Nat.shiftLeft_eq, Nat.mul_comm hi, Nat.mul_add_lt_is_or h]

theorem Uint32_eq_beValue (l : List Byte) (h : 4 ≤ l.length) : Uint32 l = beValue (l.take 4) := by
  match l, h with
  | a :: b :: c :: d :: rest, _ =>
    have ha := a.isLt
    have hb := b.isLt
    have hc := c.isLt
    have hd := d.isLt
    simp only [Uint32, beValue, List.getD_cons_succ, List.getD_cons_zero, List.take,
      List.foldl_cons, List.foldl_nil]
    rw [or_shift_eq_add _ _ 8 (by omega), or_shift_eq_add _ _ 16 (by omega),
      or_shift_eq_add _ _ 24 (by omega)]
    omega

theorem initCP_eq : initCP = .ok testEngine := by
  unfold testEngine initCP
  rw [NewCryptoPAn_of_length_64 testKey (by decide)]

theorem AnonymizeIPv4_ok_iff (cp : CryptoPAn) (ip : List Byte) :
    (∃ out, AnonymizeIPv4 cp ip = .ok out) ↔ (ip.length = 4 ∨ IsIPv4Mapped ip) := by
  rw [← To4_isSome_iff]
  cases h : To4 ip with
  | none => simp [AnonymizeIPv4_of_none cp ip h]
  | some x => simp [AnonymizeIPv4_of_To4 cp ip x h]

theorem AnonymizeIPv4_error_iff (cp : CryptoPAn) (ip : List Byte) :
    (∃ e, AnonymizeIPv4 cp ip = .error e) ↔ ¬ (ip.length = 4 ∨ IsIPv4Mapped ip) := by
  rw [← To4_eq_none_iff]
  cases h : To4 ip with
  | none => simp [AnonymizeIPv4_of_none cp ip h]
  | some x => simp [AnonymizeIPv4_of_To4 cp ip x h]

theorem AnonymizeIPv6_ok_iff (cp : CryptoPAn) (ip : List Byte) :
    (∃ out, AnonymizeIPv6 cp ip = .ok out) ↔ (ip.length = 4 ∨ ip.length = 16) := by
  have hn := To16_eq_none_iff ip
  cases h : To16 ip with
  | none =>
    rw [h] at hn
    have := hn.mp rfl
    simp [AnonymizeIPv6_of_none cp ip h, this.1, this.2]
  | some x =>
    rw [h] at hn
    have : ¬ (ip.length ≠ 4 ∧ ip.length ≠ 16) := fun hc => Option.noConfusion (hn.mpr hc)
    simp only [AnonymizeIPv6_of_To16 cp ip x h, Except.ok.injEq, exists_eq', true_iff]
    omega

theorem AnonymizeIPv6_error_iff (cp : CryptoPAn) (ip : List Byte) :
    (∃ e, AnonymizeIPv6 cp ip = .error e) ↔ (ip.length ≠ 4 ∧ ip.length ≠ 16) := by
  rw [← To16_eq_none_iff]
  cases h : To16 ip with
  | none => simp [AnonymizeIPv6_of_none cp ip h]
  | some x => simp [AnonymizeIPv6_of_To16 cp ip x h]

theorem Anonymize_of_v4 (cp : CryptoPAn) (ip : List Byte)
    (h : ip.length = 4 ∨ IsIPv4Mapped ip) : Anonymize cp ip = AnonymizeIPv4 cp ip := by
  have hne : To4 ip ≠ none := fun hc => (To4_eq_none_iff ip).mp hc h
  unfold Anonymize
  rw [if_neg hne]

theorem Anonymize_of_not_v4 (cp : CryptoPAn) (ip : List Byte)
    (h : ¬ (ip.length = 4 ∨ IsIPv4Mapped ip)) : Anonymize cp ip = AnonymizeIPv6 cp ip := by
  unfold Anonymize
  rw [if_pos ((To4_eq_none_iff ip).mpr h)]

/-! ## The claims -/

/-- C1: `NewCryptoPAn` fails exactly when the key is not 64 bytes long, and then
with the key-length error and without an engine; it succeeds exactly on the
64-byte keys, for which the AES key `key[:32]` is accepted by `aes.NewCipher`,
so that the cipher-initialisation error is never returned. -/
theorem NewCryptoPAn_error_iff_length_ne_64 (key : List Byte) :
    ((∃ e, (NewCryptoPAn key).1 = .error e) ↔ key.length ≠ 64) ∧
    ((∃ cp, (NewCryptoPAn key).1 = .ok cp) ↔ key.length = 64) ∧
    (∀ e, (NewCryptoPAn key).1 = .error e → e = "invalid key length, it should be 64 bytes") ∧
    (key.length = 64 → NewCipher (key.take 32) = .ok (AES.encryptBlock (key.take 32))) := by
  by_cases h : key.length = 64
  · rw [NewCryptoPAn_of_length_64 key h]
    refine ⟨?_, ?_, ?_, ?_⟩
    · constructor
      · rintro ⟨e, he⟩
        cases he
      · intro hne
        exact absurd h hne
    · constructor
      · intro _
        exact h
      · intro _
        exact ⟨_, rfl⟩
    · intro e he
      cases he
    · intro _
      exact NewCipher_of_length_32 _ (by simp [h])
  · have hn : NewCryptoPAn key = (.error "invalid key length, it should be 64 bytes", key) := by
      unfold NewCryptoPAn
      rw [if_pos h]
    rw [hn]
    refine ⟨?_, ?_, ?_, ?_⟩
    · constructor
      · intro _
        exact h
      · intro _
        exact ⟨_, rfl⟩
    · constructor
      · rintro ⟨cp, hcp⟩
        cases hcp
      · intro hc
        exact absurd hc h
    · intro e he
      cases he
      rfl
    · intro hc
      exact absurd hc h

/-- Witness of C1 at the key of the tests. -/
theorem NewCryptoPAn_error_iff_length_ne_64_witness :
    testKey.length = 64 ∧ NewCipher (testKey.take 32) = .ok (AES.encryptBlock (testKey.take 32)) :=
  ⟨by decide, (NewCryptoPAn_error_iff_length_ne_64 testKey).2.2.2 (by decide)⟩

/-- C2: under the key of the tests the IPv4 transform is not prefix-preserving.
The addresses 0.0.0.0 and 0.0.0.1 share their first 31 bits, yet they are sent
to 237.209.166.143 and 95.74.243.135, which differ in their first bit. -/
theorem AnonymizeIPv4_breaks_shared_prefix :
    AnonymizeIPv4 testEngine [0, 0, 0, 0] = .ok [237, 209, 166, 143] ∧
    AnonymizeIPv4 testEngine [0, 0, 0, 1] = .ok [95, 74, 243, 135] ∧
    SharePrefix 31 [0, 0, 0, 0] [0, 0, 0, 1] ∧
    ¬ SharePrefix 1 [237, 209, 166, 143] [95, 74, 243, 135] := by
  decide!

/-- C3: under the key of the tests the IPv4 transform is not injective: the
distinct addresses 255.255.255.254 and 255.255.255.255 are both sent to
255.255.255.255. -/
theorem AnonymizeIPv4_collision :
    AnonymizeIPv4 testEngine [255, 255, 255, 254] = .ok [255, 255, 255, 255] ∧
    AnonymizeIPv4 testEngine [255, 255, 255, 255] = .ok [255, 255, 255, 255] ∧
    ([255, 255, 255, 254] : List Byte) ≠ [255, 255, 255, 255] := by
  decide!

/-- C4, as stated, fails: the 16-byte IPv4-mapped form of 10.0.0.1 is
anonymized by `Anonymize` to the 4 bytes 95.74.243.135. -/
theorem Anonymize_mapped_input_gives_4_bytes :
    ([0, 0, 0, 0, 0, 0, 0, 0, 0, 0, 0xff, 0xff, 10, 0, 0, 1] : List Byte).length = 16 ∧
    Anonymize testEngine [0, 0, 0, 0, 0, 0, 0, 0, 0, 0, 0xff, 0xff, 10, 0, 0, 1]
      = .ok [95, 74, 243, 135] ∧
    ([95, 74, 243, 135] : List Byte).length = 4 := by
  decide!

/-- C4, amended: `Anonymize` returns 4 bytes for every input that is 4 bytes
long or a 16-byte IPv4-mapped address, and 16 bytes for every other 16-byte
input; whatever the input, a successful `AnonymizeIPv4` returns 4 bytes and a
successful `AnonymizeIPv6` returns 16 bytes. -/
theorem Anonymize_output_length (cp : CryptoPAn) (ip : List Byte) :
    (ip.length = 4 ∨ IsIPv4Mapped ip → ∃ out, Anonymize cp ip = .ok out ∧ out.length = 4) ∧
    (ip.length = 16 → ¬ IsIPv4Mapped ip → ∃ out, Anonymize cp ip = .ok out ∧ out.length = 16) ∧
    (∀ out, AnonymizeIPv4 cp ip = .ok out → out.length = 4) ∧
    (∀ out, AnonymizeIPv6 cp ip = .ok out → out.length = 16) := by
  refine ⟨?_, ?_, AnonymizeIPv4_ok_length cp ip, AnonymizeIPv6_ok_length cp ip⟩
  · intro h
    obtain ⟨out, hout⟩ := (AnonymizeIPv4_ok_iff cp ip).mpr h
    exact ⟨out, by rw [Anonymize_of_v4 cp ip h, hout], AnonymizeIPv4_ok_length cp ip out hout⟩
  · intro h16 hm
    have hn : ¬ (ip.length = 4 ∨ IsIPv4Mapped ip) := by
      rintro (h4 | hc)
      · omega
      · exact hm hc
    obtain ⟨out, hout⟩ := (AnonymizeIPv6_ok_iff cp ip).mpr (Or.inr h16)
    exact ⟨out, by rw [Anonymize_of_not_v4 cp ip hn, hout], AnonymizeIPv6_ok_length cp ip out hout⟩

/-- Witness of the amended C4: the engine of the tests on the 4-byte address
10.0.0.1. -/
theorem Anonymize_output_length_witness :
    ∃ out, Anonymize testEngine [10, 0, 0, 1] = .ok out ∧ out.length = 4 :=
  (Anonymize_output_length testEngine [10, 0, 0, 1]).1 (Or.inl rfl)

/-- C5, as stated, fails: `AnonymizeIPv6` accepts the 4-byte address 10.0.0.1
and returns 16 bytes for it. -/
theorem AnonymizeIPv6_accepts_4_bytes :
    ([10, 0, 0, 1] : List Byte).length = 4 ∧
    ∃ out, AnonymizeIPv6 testEngine [10, 0, 0, 1] = .ok out ∧ out.length = 16 := by
  refine ⟨rfl, ?_⟩
  obtain ⟨out, hout⟩ := (AnonymizeIPv6_ok_iff testEngine [10, 0, 0, 1]).mpr (Or.inl rfl)
  exact ⟨out, hout, AnonymizeIPv6_ok_length _ _ out hout⟩

/-- C5, amended: `AnonymizeIPv6` returns an error exactly when the input is
neither 4 nor 16 bytes long; for every input of 4 or 16 bytes it returns 16
bytes, a 4-byte input being treated as its 16-byte IPv4-mapped form. -/
theorem AnonymizeIPv6_error_iff_length (cp : CryptoPAn) (ip : List Byte) :
    ((∃ e, AnonymizeIPv6 cp ip = .error e) ↔ (ip.length ≠ 4 ∧ ip.length ≠ 16)) ∧
    ((∃ out, AnonymizeIPv6 cp ip = .ok out ∧ out.length = 16)
      ↔ (ip.length = 4 ∨ ip.length = 16)) ∧
    (∀ a b c d : Byte, AnonymizeIPv6 cp [a, b, c, d]
      = AnonymizeIPv6 cp [0, 0, 0, 0, 0, 0, 0, 0, 0, 0, 0xff, 0xff, a, b, c, d]) := by
  refine ⟨AnonymizeIPv6_error_iff cp ip, ?_, ?_⟩
  · rw [← AnonymizeIPv6_ok_iff cp ip]
    constructor
    · rintro ⟨out, hout, -⟩
      exact ⟨out, hout⟩
    · rintro ⟨out, hout⟩
      exact ⟨out, hout, AnonymizeIPv6_ok_length cp ip out hout⟩
  · intro a b c d
    rw [AnonymizeIPv6_of_To16 cp [a, b, c, d] (IPv4 a b c d) (by simp [To16]),
      AnonymizeIPv6_of_To16 cp _ (IPv4 a b c d) (by simp [To16, IPv4])]

/-- C6: `AnonymizeIPv4` returns an error exactly when the input is neither 4
bytes long nor a 16-byte IPv4-mapped address, in particular for every length
other than 4 and 16; it succeeds on all other inputs, and every successful
result is 4 bytes long. -/
theorem AnonymizeIPv4_error_iff_not_v4 (cp : CryptoPAn) (ip : List Byte) :
    ((∃ e, AnonymizeIPv4 cp ip = .error e) ↔ ¬ (ip.length = 4 ∨ IsIPv4Mapped ip)) ∧
    ((∃ out, AnonymizeIPv4 cp ip = .ok out) ↔ (ip.length = 4 ∨ IsIPv4Mapped ip)) ∧
    (ip.length ≠ 4 → ip.length ≠ 16 → ∃ e, AnonymizeIPv4 cp ip = .error e) ∧
    (∀ out, AnonymizeIPv4 cp ip = .ok out → out.length = 4) := by
  refine ⟨AnonymizeIPv4_error_iff cp ip, AnonymizeIPv4_ok_iff cp ip, ?_,
    AnonymizeIPv4_ok_length cp ip⟩
  intro h4 h16
  apply (AnonymizeIPv4_error_iff cp ip).mpr
  rintro (hc | hc)
  · exact h4 hc
  · exact h16 hc.length

/-- Witness of C6: the engine of the tests rejects the 5-byte input
`1 2 3 4 5`. -/
theorem AnonymizeIPv4_error_iff_not_v4_witness :
    ∃ e, AnonymizeIPv4 testEngine [1, 2, 3, 4, 5] = .error e :=
  (AnonymizeIPv4_error_iff_not_v4 testEngine [1, 2, 3, 4, 5]).2.2.1 (by decide) (by decide)

/-- C7: `Anonymize` is `AnonymizeIPv4` on every input that is 4 bytes long or a
16-byte IPv4-mapped address and `AnonymizeIPv6` on every other input; it
returns an error exactly when the input is neither 4 nor 16 bytes long; an
IPv4 address gives the same result in its 4-byte and in its IPv4-mapped
form. -/
theorem Anonymize_dispatch (cp : CryptoPAn) (ip : List Byte) :
    (ip.length = 4 ∨ IsIPv4Mapped ip → Anonymize cp ip = AnonymizeIPv4 cp ip) ∧
    (¬ (ip.length = 4 ∨ IsIPv4Mapped ip) → Anonymize cp ip = AnonymizeIPv6 cp ip) ∧
    ((∃ e, Anonymize cp ip = .error e) ↔ (ip.length ≠ 4 ∧ ip.length ≠ 16)) ∧
    (∀ a b c d : Byte, Anonymize cp [a, b, c, d]
      = Anonymize cp [0, 0, 0, 0, 0, 0, 0, 0, 0, 0, 0xff, 0xff, a, b, c, d]) := by
  refine ⟨Anonymize_of_v4 cp ip, Anonymize_of_not_v4 cp ip, ?_, ?_⟩
  · by_cases h : ip.length = 4 ∨ IsIPv4Mapped ip
    · rw [Anonymize_of_v4 cp ip h]
      obtain ⟨out, hout⟩ := (AnonymizeIPv4_ok_iff cp ip).mpr h
      rw [hout]
      constructor
      · rintro ⟨e, he⟩
        cases he
      · rintro ⟨h4, h16⟩
        rcases h with hc | hc
        · exact absurd hc h4
        · exact absurd hc.length h16
    · rw [Anonymize_of_not_v4 cp ip h]
      exact AnonymizeIPv6_error_iff cp ip
  · intro a b c d
    rw [Anonymize_of_v4 cp [a, b, c, d] (Or.inl rfl),
      Anonymize_of_v4 cp _ (Or.inr ⟨a, b, c, d, rfl⟩),
      AnonymizeIPv4_of_To4 cp [a, b, c, d] [a, b, c, d] (To4_of_length_4 _ rfl),
      AnonymizeIPv4_of_To4 cp _ [a, b, c, d] (To4_mapped a b c d)]

/-- Witness of C7: on the 4-byte address 10.0.0.1 the engine of the tests
takes the IPv4 path. -/
theorem Anonymize_dispatch_witness :
    Anonymize testEngine [10, 0, 0, 1] = AnonymizeIPv4 testEngine [10, 0, 0, 1] :=
  (Anonymize_dispatch testEngine [10, 0, 0, 1]).1 (Or.inl rfl)

/-- C8: `NewCryptoPAn` does not leave the caller's key untouched. On the key of
the tests (`'a'` 64 times) bytes 32 to 47 of the buffer are replaced by their
AES-256 encryption, and the field `key` of the engine holds the changed
buffer. -/
theorem NewCryptoPAn_overwrites_key_buffer :
    (NewCryptoPAn testKey).2 =
      List.replicate 32 0x61
        ++ [44, 205, 69, 137, 111, 195, 82, 94, 3, 199, 203, 151, 182, 104, 149, 255]
        ++ List.replicate 16 0x61 ∧
    (NewCryptoPAn testKey).2 ≠ testKey ∧
    testEngine.key = (NewCryptoPAn testKey).2 := by
  decide!

/-- C9: two calls of `NewCryptoPAn` in succession on the same buffer give two
different engines. With the key of the tests the first engine has
`first4bytes = 0x2ccd4589` and the second, built from the buffer the first
call left behind, `0x36a127f3`; 3.168.10.154 is sent to 203.174.191.191 by the
first and to 223.169.11.159 by the second. -/
theorem NewCryptoPAn_twice_differs :
    (NewCryptoPAn testKey).1.map (fun cp => cp.first4bytes) = .ok 0x2ccd4589 ∧
    (NewCryptoPAn (NewCryptoPAn testKey).2).1.map (fun cp => cp.first4bytes) = .ok 0x36a127f3 ∧
    ((NewCryptoPAn testKey).1.bind fun cp => Anonymize cp [3, 168, 10, 154])
      = .ok [203, 174, 191, 191] ∧
    ((NewCryptoPAn (NewCryptoPAn testKey).2).1.bind fun cp => Anonymize cp [3, 168, 10, 154])
      = .ok [223, 169, 11, 159] := by
  decide!

/-- C10: for a 64-byte key, the engine of `NewCryptoPAn` has `secretPad` equal
to the AES-256 encryption under `key[0:32]` of the block `key[32:48]`, followed
by `key[48:64]`, and `first4bytes` equal to the big-endian value of the first
four bytes of that encrypted block; its cipher is AES-256 under `key[0:32]`. -/
theorem NewCryptoPAn_pad (key : List Byte) (h : key.length = 64) :
    ∃ cp, (NewCryptoPAn key).1 = .ok cp ∧
      cp.secretPad = AES.encryptBlock (key.take 32) ((key.drop 32).take 16)
        ++ (key.drop 48).take 16 ∧
      cp.first4bytes
        = beValue ((AES.encryptBlock (key.take 32) ((key.drop 32).take 16)).take 4) ∧
      cp.rijndael = AES.encryptBlock (key.take 32) := by
  have h48 : (key.drop 48).take 16 = key.drop 48 := List.take_of_length_le (by simp [h])
  rw [NewCryptoPAn_of_length_64 key h, h48]
  refine ⟨_, rfl, rfl, ?_, rfl⟩
  show Uint32 _ = _
  rw [Uint32_eq_beValue _ (by rw [List.length_append, length_encryptBlock]; omega),
    List.take_append_of_le_length (by rw [length_encryptBlock]; omega)]

/-- Witness of C10 at the key of the tests. -/
theorem NewCryptoPAn_pad_witness :
    ∃ cp, (NewCryptoPAn testKey).1 = .ok cp ∧
      cp.secretPad = AES.encryptBlock (testKey.take 32) ((testKey.drop 32).take 16)
        ++ (testKey.drop 48).take 16 ∧
      cp.first4bytes
        = beValue ((AES.encryptBlock (testKey.take 32) ((testKey.drop 32).take 16)).take 4) ∧
      cp.rijndael = AES.encryptBlock (testKey.take 32) :=
  NewCryptoPAn_pad testKey (by decide)


/-! ## Lemmas on the two loops -/

theorem ipv4Step_eq (cp : CryptoPAn) (r p : Nat) :
    ipv4Step cp r p
      = (r ||| (cipherBit cp.rijndael (ipv4Input cp.first4bytes r p) <<< (31 - p)))
          % 4294967296 := rfl

theorem ipv6Step_eq (cp : CryptoPAn) (r p : Nat) :
    ipv6Step cp r p
      = big.SetBit r (127 - p) (cipherBit cp.rijndael (ipv6Input cp.first4bytes r p)) := rfl

theorem ipv4Loop_succ (cp : CryptoPAn) (a n : Nat) :
    ipv4Loop cp a (n + 1) = ipv4Step cp (ipv4Loop cp a n) n := by
  simp [ipv4Loop, List.range_succ, List.foldl_append]

theorem ipv6Loop_succ (cp : CryptoPAn) (a n : Nat) :
    ipv6Loop cp a (n + 1) = ipv6Step cp (ipv6Loop cp a n) n := by
  simp [ipv6Loop, List.range_succ, List.foldl_append]

theorem cipherBit_cases (block : Block) (input : List Byte) :
    cipherBit block input = 0 ∨ cipherBit block input = 1 := by
  unfold cipherBit
  rw [Nat.and_one_is_mod]
  omega

theorem testBit_bit_shiftLeft (b i j : Nat) (hb : b = 0 ∨ b = 1) :
    (b <<< i).testBit j = (decide (j = i) && decide (b = 1)) := by
  rcases hb with rfl | rfl
  · simp
  · rw [Nat.one_shiftLeft, Nat.testBit_two_pow]
    by_cases h : i = j
    · simp [h]
    · have h2 : ¬ j = i := fun hc => h hc.symm
      simp [h, h2]

theorem ipv4Step_testBit (cp : CryptoPAn) (r p j : Nat) :
    (ipv4Step cp r p).testBit j
      = (decide (j < 32) && (r.testBit j ||
          (decide (j = 31 - p)
            && decide (cipherBit cp.rijndael (ipv4Input cp.first4bytes r p) = 1)))) := by
  rw [ipv4Step_eq, show (4294967296 : Nat) = 2 ^ 32 by norm_num, Nat.testBit_mod_two_pow,
    Nat.testBit_or, testBit_bit_shiftLeft _ _ _ (cipherBit_cases _ _)]

theorem ipv4Input_congr (f r r' p : Nat)
    (h : ∀ i, i < 32 - p → r.testBit i = r'.testBit i) :
    ipv4Input f r p = ipv4Input f r' p := by
  have hs : ((r <<< p) ||| (f >>> (32 - p))) % 4294967296
      = ((r' <<< p) ||| (f >>> (32 - p))) % 4294967296 := by
    rw [show (4294967296 : Nat) = 2 ^ 32 by norm_num]
    apply Nat.eq_of_testBit_eq
    intro i
    simp only [Nat.testBit_mod_two_pow, Nat.testBit_or, Nat.testBit_shiftLeft]
    by_cases hi : i < 32
    · by_cases hp : p ≤ i
      · rw [h (i - p) (by omega)]
      · simp [hp]
    · simp [hi]
  unfold ipv4Input
  simp only [hs]

/-- The bits of the variable `result` of `AnonymizeIPv4` after the turns for
the positions below `n`: bit `j` (counted from the least significant end) is
the bit of the address `a`, or-ed, once its turn `31 - j` has passed, with the
cipher bit of the block built from the bits `0 .. j` of the address. -/
theorem ipv4Loop_testBit (cp : CryptoPAn) (a : Nat) (ha : a < 2 ^ 32) (n : Nat) (hn : n ≤ 32)
    (j : Nat) :
    (ipv4Loop cp a n).testBit j
      = (a.testBit j || (decide (32 - n ≤ j ∧ j < 32)
          && decide (cipherBit cp.rijndael
              (ipv4Input cp.first4bytes (a % 2 ^ (j + 1)) (31 - j)) = 1))) := by
  induction n generalizing j with
  | zero =>
    have h0 : decide (32 - 0 ≤ j ∧ j < 32) = false := decide_eq_false (by omega)
    rw [h0]
    simp [ipv4Loop]
  | succ n ih =>
    have hlow : ∀ i, i < 32 - n → (ipv4Loop cp a n).testBit i = (a % 2 ^ (32 - n)).testBit i := by
      intro i hi
      have hno : decide (32 - n ≤ i ∧ i < 32) = false := decide_eq_false (by omega)
      have hlt : decide (i < 32 - n) = true := decide_eq_true hi
      rw [ih (by omega) i, Nat.testBit_mod_two_pow, hno, hlt]
      simp
    rw [ipv4Loop_succ, ipv4Step_testBit, ipv4Input_congr _ _ _ _ hlow, ih (by omega) j]
    by_cases hj : j < 32
    · have dj : decide (j < 32) = true := decide_eq_true hj
      by_cases hjn : j = 31 - n
      · have d1 : decide (32 - n ≤ j ∧ j < 32) = false := decide_eq_false (by omega)
        have d2 : decide (32 - (n + 1) ≤ j ∧ j < 32) = true := decide_eq_true (by omega)
        have d3 : decide (j = 31 - n) = true := decide_eq_true hjn
        have h3 : 31 - j = n := by omega
        have h4 : j + 1 = 32 - n := by omega
        rw [dj, d1, d2, d3, h3, h4]
        simp
      · have d3 : decide (j = 31 - n) = false := decide_eq_false hjn
        have d1 : decide (32 - (n + 1) ≤ j ∧ j < 32) = decide (32 - n ≤ j ∧ j < 32) :=
          decide_eq_decide.mpr (by omega)
        rw [dj, d3, d1]
        simp
    · have hf : a.testBit j = false :=
        Nat.testBit_lt_two_pow (Nat.lt_of_lt_of_le ha (Nat.pow_le_pow_right (by decide) (by omega)))
      have dj : decide (j < 32) = false := decide_eq_false hj
      have d1 : decide (32 - (n + 1) ≤ j ∧ j < 32) = false := decide_eq_false (by omega)
      rw [dj, d1, hf]
      simp

theorem ipv4Loop_lt (cp : CryptoPAn) (a : Nat) (ha : a < 2 ^ 32) (n : Nat) (hn : n ≤ 32) :
    ipv4Loop cp a n < 2 ^ 32 := by
  apply Nat.lt_pow_two_of_testBit
  intro i hi
  have hf : a.testBit i = false :=
    Nat.testBit_lt_two_pow (Nat.lt_of_lt_of_le ha (Nat.pow_le_pow_right (by decide) hi))
  have h1 : decide (32 - n ≤ i ∧ i < 32) = false := decide_eq_false (by omega)
  rw [ipv4Loop_testBit cp a ha n hn i, hf, h1]
  simp

theorem Uint32_lt (l : List Byte) : Uint32 l < 2 ^ 32 := by
  unfold Uint32
  have h0 := (l.getD 0 0).isLt
  have h1 := (l.getD 1 0).isLt
  have h2 := (l.getD 2 0).isLt
  have h3 := (l.getD 3 0).isLt
  refine Nat.or_lt_two_pow (Nat.or_lt_two_pow (Nat.or_lt_two_pow ?_ ?_) ?_) ?_
  · omega
  · rw [Nat.shiftLeft_eq]; omega
  · rw [Nat.shiftLeft_eq]; omega
  · rw [Nat.shiftLeft_eq]; omega

theorem Uint32_PutUint32 (v : Nat) (h : v < 2 ^ 32) : Uint32 (PutUint32 v) = v := by
  rw [Uint32_eq_beValue _ (by simp [PutUint32])]
  simp only [PutUint32, List.take, beValue, List.foldl_cons, List.foldl_nil, toByte,
    Nat.shiftRight_eq_div_pow]
  omega

theorem AnonymizeIPv4_four (cp : CryptoPAn) (a b c d : Byte) :
    AnonymizeIPv4 cp [a, b, c, d]
      = .ok (PutUint32 (ipv4Loop cp (Uint32 [a, b, c, d]) 32)) :=
  AnonymizeIPv4_of_To4 cp [a, b, c, d] [a, b, c, d] (To4_of_length_4 _ rfl)

/-! ## The claims, continued -/

/-- C12: `AnonymizeIPv4` only turns bits on. For every engine and every 4-byte
address, the call succeeds and every bit that is 1 in the address is 1 in the
output: the output and-ed with the address is the address, as 32-bit
values. -/
theorem AnonymizeIPv4_keeps_one_bits (cp : CryptoPAn) (a b c d : Byte) :
    ∃ out, AnonymizeIPv4 cp [a, b, c, d] = .ok out ∧
      Uint32 out &&& Uint32 [a, b, c, d] = Uint32 [a, b, c, d] := by
  refine ⟨_, AnonymizeIPv4_four cp a b c d, ?_⟩
  have ha := Uint32_lt [a, b, c, d]
  rw [Uint32_PutUint32 _ (ipv4Loop_lt cp _ ha 32 (Nat.le_refl 32))]
  apply Nat.eq_of_testBit_eq
  intro i
  rw [Nat.testBit_and, ipv4Loop_testBit cp _ ha 32 (Nat.le_refl 32) i]
  cases (Uint32 [a, b, c, d]).testBit i <;> simp

theorem AnonymizeIPv6_sixteen (cp : CryptoPAn) (ip : List Byte) (h : ip.length = 16) :
    AnonymizeIPv6 cp ip
      = .ok (copyInto (zeroBytes 16) (big.Bytes (ipv6Loop cp (big.SetBytes ip) 128))) :=
  AnonymizeIPv6_of_To16 cp ip ip (by simp [To16, h])

/-- The register of `AnonymizeIPv6` after the 128 turns, for the engine and
the IPv6 address of the tests. -/
theorem ipv6Loop_testAddr6 :
    ipv6Loop testEngine (big.SetBytes testAddr6) 128 = 0x88f99024dfe1bd := by
  decide!

/-- The variable `result` of `AnonymizeIPv4` after the 32 turns, for the
engine and the IPv4 address of the tests. -/
theorem ipv4Loop_testAddr4 :
    ipv4Loop testEngine (Uint32 [3, 168, 10, 154]) 32 = 0xcbaebfbf := by
  decide!

/-- C13: the bytes `AnonymizeIPv6` returns are not the 16-byte big-endian
encoding of the final register when that register has leading zero bytes. For
the engine and the IPv6 address of the tests the final register is
`0x88f99024dfe1bd`; the output starts with its seven bytes and ends with nine
zero bytes, whereas the big-endian encoding starts with the nine zero bytes. -/
theorem AnonymizeIPv6_output_left_aligned :
    ipv6Loop testEngine (big.SetBytes testAddr6) 128 = 0x88f99024dfe1bd ∧
    AnonymizeIPv6 testEngine testAddr6
      = .ok [0x88, 0xf9, 0x90, 0x24, 0xdf, 0xe1, 0xbd, 0, 0, 0, 0, 0, 0, 0, 0, 0] ∧
    bigEndian16 0x88f99024dfe1bd
      = [0, 0, 0, 0, 0, 0, 0, 0, 0, 0x88, 0xf9, 0x90, 0x24, 0xdf, 0xe1, 0xbd] := by
  refine ⟨ipv6Loop_testAddr6, ?_, by decide⟩
  rw [AnonymizeIPv6_sixteen testEngine testAddr6 rfl, ipv6Loop_testAddr6]
  decide!

/-- C14: the engine built from the key `'a'` 64 times sends 3.168.10.154 to
203.174.191.191, both for the 16-byte form of the address that the test
passes and for its 4-byte form. -/
theorem Anonymize_test_vector_ipv4 :
    (NewCryptoPAn testKey).1 = .ok testEngine ∧
    Anonymize testEngine testAddr4 = .ok [203, 174, 191, 191] ∧
    Anonymize testEngine [3, 168, 10, 154] = .ok [203, 174, 191, 191] := by
  refine ⟨initCP_eq, ?_, ?_⟩
  · rw [Anonymize_of_v4 testEngine testAddr4 (Or.inr ⟨3, 168, 10, 154, rfl⟩),
      AnonymizeIPv4_of_To4 testEngine testAddr4 [3, 168, 10, 154] (To4_mapped 3 168 10 154)]
    show Except.ok (PutUint32 (ipv4Loop testEngine (Uint32 [3, 168, 10, 154]) 32)) = _
    rw [ipv4Loop_testAddr4]
    decide
  · rw [Anonymize_of_v4 testEngine [3, 168, 10, 154] (Or.inl rfl), AnonymizeIPv4_four,
      ipv4Loop_testAddr4]
    decide

/-- C15: the engine built from the key `'a'` 64 times sends
2001:db8::5555:6666:7777:8888 to 88f9:9024:dfe1:bd00::. -/
theorem Anonymize_test_vector_ipv6 :
    (NewCryptoPAn testKey).1 = .ok testEngine ∧
    Anonymize testEngine testAddr6
      = .ok [0x88, 0xf9, 0x90, 0x24, 0xdf, 0xe1, 0xbd, 0x00, 0, 0, 0, 0, 0, 0, 0, 0] := by
  refine ⟨initCP_eq, ?_⟩
  have h4 : To4 testAddr6 = none := by decide
  unfold Anonymize
  rw [if_pos h4, AnonymizeIPv6_sixteen testEngine testAddr6 rfl, ipv6Loop_testAddr6]
  decide!

/-- C16: the cipher input block of `AnonymizeIPv6` is not built from
`register << p`. For the engine of the tests and the address `::1`, in the turn
for position 1 the register is 1 and the block ends with the bytes of
`1 | (first4bytes >> 127) = 1`, where the claimed block ends with those of
`(1 << 1) | (first4bytes >> 127) = 2`. -/
theorem ipv6Input_ignores_shift :
    testEngine.first4bytes = 0x2ccd4589 ∧
    ipv6Loop testEngine (big.SetBytes [0, 0, 0, 0, 0, 0, 0, 0, 0, 0, 0, 0, 0, 0, 0, 1]) 1 = 1 ∧
    ipv6Input 0x2ccd4589 1 1 = [0x2c, 0, 0, 0, 0, 0, 0, 0, 0, 0, 0, 0, 0, 0, 0, 1] ∧
    ipv6InputClaimed 0x2ccd4589 1 1 = [0x2c, 0, 0, 0, 0, 0, 0, 0, 0, 0, 0, 0, 0, 0, 0, 2] := by
  decide!

theorem big.testBit_SetBit (x i b j : Nat) (hb : b = 0 ∨ b = 1) :
    (big.SetBit x i b).testBit j = if j = i then decide (b = 1) else x.testBit j := by
  unfold big.SetBit
  rw [Nat.testBit_or, Nat.testBit_xor, Nat.testBit_and, testBit_bit_shiftLeft b i j hb,
    testBit_bit_shiftLeft 1 i j (Or.inr rfl)]
  by_cases h : j = i
  · simp [h]
  · simp [h]

theorem ipv6Step_testBit (cp : CryptoPAn) (r p j : Nat) :
    (ipv6Step cp r p).testBit j
      = if j = 127 - p then decide (cipherBit cp.rijndael (ipv6Input cp.first4bytes r p) = 1)
        else r.testBit j := by
  rw [ipv6Step_eq, big.testBit_SetBit _ _ _ _ (cipherBit_cases _ _)]

/-- The bits of the register of `AnonymizeIPv6` after the turns for the
positions below `n`: bit `j` is still the bit of the address `a` while its turn
`127 - j` has not come, and afterwards it is the cipher bit of that turn. -/
theorem ipv6Loop_testBit (cp : CryptoPAn) (a n : Nat) (hn : n ≤ 128) (j : Nat) :
    (ipv6Loop cp a n).testBit j
      = if 128 - n ≤ j ∧ j < 128 then
          decide (cipherBit cp.rijndael
            (ipv6Input cp.first4bytes (ipv6Loop cp a (127 - j)) (127 - j)) = 1)
        else a.testBit j := by
  induction n with
  | zero =>
    rw [if_neg (by omega)]
    simp [ipv6Loop]
  | succ n ih =>
    rw [ipv6Loop_succ, ipv6Step_testBit]
    by_cases hj : j = 127 - n
    · have hn' : 127 - j = n := by omega
      rw [if_pos hj, if_pos (by omega), hn']
    · rw [if_neg hj, ih (by omega)]
      by_cases hc : 128 - n ≤ j ∧ j < 128
      · rw [if_pos hc, if_pos (by omega)]
      · rw [if_neg hc, if_neg (by omega)]

theorem ipv6Input_congr (f r r' p p' : Nat) (hy : f >>> (128 - p) = f >>> (128 - p'))
    (h : ∀ i, i < 64 → r.testBit i = r'.testBit i) :
    ipv6Input f r p = ipv6Input f r' p' := by
  have hs : (r ||| (f >>> (128 - p))) % 18446744073709551616
      = (r' ||| (f >>> (128 - p'))) % 18446744073709551616 := by
    rw [show (18446744073709551616 : Nat) = 2 ^ 64 by norm_num, hy]
    apply Nat.eq_of_testBit_eq
    intro i
    simp only [Nat.testBit_mod_two_pow, Nat.testBit_or]
    by_cases hi : i < 64
    · rw [h i hi]
    · simp [hi]
  unfold ipv6Input
  simp only [big.Or, big.Rsh, big.Uint64, hs]

theorem beValue_append (l1 l2 : List Byte) :
    beValue (l1 ++ l2) = beValue l1 * 256 ^ l2.length + beValue l2 := by
  have h := foldl_beValue l2 (beValue l1)
  simpa [beValue, List.foldl_append] using h

theorem beValue_lt (l : List Byte) : beValue l < 256 ^ l.length := by
  induction l with
  | nil => simp [beValue]
  | cons b l ih =>
    rw [beValue_cons, List.length_cons, Nat.pow_succ]
    have hb := b.isLt
    have hpos : 0 < 256 ^ l.length := Nat.pow_pos (by decide)
    nlinarith

theorem beValue_mod_of_length_16 (ip : List Byte) (h : ip.length = 16) :
    beValue ip % 2 ^ 64 = beValue (ip.drop 8) := by
  have hsplit : ip = ip.take 8 ++ ip.drop 8 := (List.take_append_drop 8 ip).symm
  have hlen : (ip.drop 8).length = 8 := by simp [h]
  have hlt := beValue_lt (ip.drop 8)
  rw [hlen] at hlt
  have hv : beValue ip = beValue (ip.take 8) * 256 ^ 8 + beValue (ip.drop 8) := by
    conv_lhs => rw [hsplit]
    rw [beValue_append, hlen]
  rw [hv, show (2 : Nat) ^ 64 = 256 ^ 8 by norm_num, Nat.mul_add_mod_of_lt hlt]

theorem beValue_lt_of_length_16 (ip : List Byte) (h : ip.length = 16) :
    beValue ip < 2 ^ 128 := by
  have hlt := beValue_lt ip
  rw [h] at hlt
  exact lt_of_lt_of_eq hlt (by norm_num)

theorem ipv6Loop_eq_of_low_eq (cp : CryptoPAn) (a a' : Nat) (ha : a < 2 ^ 128)
    (ha' : a' < 2 ^ 128) (hlow : a % 2 ^ 64 = a' % 2 ^ 64) :
    ipv6Loop cp a 128 = ipv6Loop cp a' 128 := by
  have hbit : ∀ i, i < 64 → a.testBit i = a'.testBit i := by
    intro i hi
    have h1 := Nat.testBit_mod_two_pow a 64 i
    have h2 := Nat.testBit_mod_two_pow a' 64 i
    rw [hlow, h2] at h1
    simpa [hi] using h1.symm
  have inv : ∀ n, n ≤ 128 → ∀ j, (j < 64 ∨ 128 - n ≤ j) →
      (ipv6Loop cp a n).testBit j = (ipv6Loop cp a' n).testBit j := by
    intro n
    induction n with
    | zero =>
      intro _ j hj
      rcases hj with hj | hj
      · simpa [ipv6Loop] using hbit j hj
      · have h1 : a.testBit j = false :=
          Nat.testBit_lt_two_pow (Nat.lt_of_lt_of_le ha (Nat.pow_le_pow_right (by decide) hj))
        have h2 : a'.testBit j = false :=
          Nat.testBit_lt_two_pow (Nat.lt_of_lt_of_le ha' (Nat.pow_le_pow_right (by decide) hj))
        simp [ipv6Loop, h1, h2]
    | succ n ih =>
      intro hn j hj
      have hin : ipv6Input cp.first4bytes (ipv6Loop cp a n) n
          = ipv6Input cp.first4bytes (ipv6Loop cp a' n) n :=
        ipv6Input_congr _ _ _ _ _ rfl (fun i hi => ih (by omega) i (Or.inl hi))
      rw [ipv6Loop_succ, ipv6Loop_succ, ipv6Step_testBit, ipv6Step_testBit, hin]
      by_cases hc : j = 127 - n
      · rw [if_pos hc, if_pos hc]
      · rw [if_neg hc, if_neg hc]
        exact ih (by omega) j (by omega)
  apply Nat.eq_of_testBit_eq
  intro j
  exact inv 128 (Nat.le_refl 128) j (by omega)

/-- C17, as stated, fails: bit 125 of the IPv6 address of the tests is 1 (its
first byte is `0x20`), and it is 0 in the register the engine of the tests
ends the loop with. -/
theorem ipv6Loop_clears_input_bit :
    (big.SetBytes testAddr6).testBit 125 = true ∧
    (ipv6Loop testEngine (big.SetBytes testAddr6) 128).testBit 125 = false := by
  rw [ipv6Loop_testAddr6]
  decide!

/-- C17, amended: in `AnonymizeIPv6` the computed bit replaces the register
bit at `127 - p`. The turn for position `p` makes that bit equal to the
computed bit, clearing a 1 when the computed bit is 0, and leaves every other
bit as it was; when the loop ends, bit `127 - p` of the register is the bit
computed in the turn for `p`, whatever the address had there. -/
theorem ipv6Step_replaces_bit (cp : CryptoPAn) (a p : Nat) (hp : p < 128) :
    (∀ r j, (ipv6Step cp r p).testBit j
      = if j = 127 - p then decide (cipherBit cp.rijndael (ipv6Input cp.first4bytes r p) = 1)
        else r.testBit j) ∧
    (ipv6Loop cp a 128).testBit (127 - p)
      = decide (cipherBit cp.rijndael
          (ipv6Input cp.first4bytes (ipv6Loop cp a p) p) = 1) := by
  refine ⟨fun r j => ipv6Step_testBit cp r p j, ?_⟩
  have hp' : 127 - (127 - p) = p := by omega
  rw [ipv6Loop_testBit cp a 128 (Nat.le_refl 128) (127 - p), if_pos (by omega), hp']

/-- Witness of the amended C17: the engine and the IPv6 address of the tests,
position 2 (register bit 125). -/
theorem ipv6Step_replaces_bit_witness :
    (ipv6Loop testEngine (big.SetBytes testAddr6) 128).testBit (127 - 2)
      = decide (cipherBit testEngine.rijndael
          (ipv6Input testEngine.first4bytes
            (ipv6Loop testEngine (big.SetBytes testAddr6) 2) 2) = 1) :=
  (ipv6Step_replaces_bit testEngine (big.SetBytes testAddr6) 2 (by decide)).2

/-- C19: `AnonymizeIPv6` only looks at the last 8 bytes of a 16-byte address:
two 16-byte inputs with the same last 8 bytes get the same output from every
engine. -/
theorem AnonymizeIPv6_depends_on_low_64 (cp : CryptoPAn) (ip ip' : List Byte)
    (h : ip.length = 16) (h' : ip'.length = 16) (hlow : ip.drop 8 = ip'.drop 8) :
    AnonymizeIPv6 cp ip = AnonymizeIPv6 cp ip' := by
  rw [AnonymizeIPv6_sixteen cp ip h, AnonymizeIPv6_sixteen cp ip' h']
  have hl : big.SetBytes ip % 2 ^ 64 = big.SetBytes ip' % 2 ^ 64 := by
    unfold big.SetBytes
    rw [beValue_mod_of_length_16 ip h, beValue_mod_of_length_16 ip' h', hlow]
  rw [ipv6Loop_eq_of_low_eq cp (big.SetBytes ip) (big.SetBytes ip')
    (beValue_lt_of_length_16 ip h) (beValue_lt_of_length_16 ip' h') hl]

/-- Witness of C19: the IPv6 address of the tests and the address with the same
last 8 bytes after 8 zero bytes. -/
theorem AnonymizeIPv6_depends_on_low_64_witness :
    AnonymizeIPv6 testEngine testAddr6
      = AnonymizeIPv6 testEngine
          [0, 0, 0, 0, 0, 0, 0, 0, 0x55, 0x55, 0x66, 0x66, 0x77, 0x77, 0x88, 0x88] :=
  AnonymizeIPv6_depends_on_low_64 testEngine testAddr6
    [0, 0, 0, 0, 0, 0, 0, 0, 0x55, 0x55, 0x66, 0x66, 0x77, 0x77, 0x88, 0x88] rfl rfl rfl

/-- C18: `AnonymizeIPv4` preserves common suffixes. For every engine, bit
`31 - p` of the output of a 4-byte address (position `p`, counted from the most
significant bit) is the bit of the address at that position or-ed with the
cipher bit of the block built from `first4bytes`, `p` and the address bits at
the positions `p .. 31` alone; so two addresses that agree on their `k` least
significant bits have outputs that agree on their `k` least significant
bits. -/
theorem AnonymizeIPv4_preserves_suffix (cp : CryptoPAn) (a b c d a' b' c' d' : Byte) (k : Nat)
    (h : Uint32 [a, b, c, d] % 2 ^ k = Uint32 [a', b', c', d'] % 2 ^ k) :
    ∃ o o', AnonymizeIPv4 cp [a, b, c, d] = .ok o ∧ AnonymizeIPv4 cp [a', b', c', d'] = .ok o' ∧
      Uint32 o % 2 ^ k = Uint32 o' % 2 ^ k ∧
      ∀ p, p < 32 → (Uint32 o).testBit (31 - p)
        = ((Uint32 [a, b, c, d]).testBit (31 - p)
            || decide (cipherBit cp.rijndael
                (ipv4Input cp.first4bytes (Uint32 [a, b, c, d] % 2 ^ (32 - p)) p) = 1)) := by
  have hA := Uint32_lt [a, b, c, d]
  have hA' := Uint32_lt [a', b', c', d']
  refine ⟨_, _, AnonymizeIPv4_four cp a b c d, AnonymizeIPv4_four cp a' b' c' d', ?_, ?_⟩
  · rw [Uint32_PutUint32 _ (ipv4Loop_lt cp _ hA 32 (Nat.le_refl 32)),
      Uint32_PutUint32 _ (ipv4Loop_lt cp _ hA' 32 (Nat.le_refl 32))]
    apply Nat.eq_of_testBit_eq
    intro i
    rw [Nat.testBit_mod_two_pow, Nat.testBit_mod_two_pow,
      ipv4Loop_testBit cp _ hA 32 (Nat.le_refl 32) i,
      ipv4Loop_testBit cp _ hA' 32 (Nat.le_refl 32) i]
    by_cases hi : i < k
    · have hbit : (Uint32 [a, b, c, d]).testBit i = (Uint32 [a', b', c', d']).testBit i := by
        have h1 := Nat.testBit_mod_two_pow (Uint32 [a, b, c, d]) k i
        have h2 := Nat.testBit_mod_two_pow (Uint32 [a', b', c', d']) k i
        rw [h, h2] at h1
        simpa [hi] using h1.symm
      have hdvd : 2 ^ (i + 1) ∣ 2 ^ k := Nat.pow_dvd_pow 2 (by omega)
      have hmod : Uint32 [a, b, c, d] % 2 ^ (i + 1) = Uint32 [a', b', c', d'] % 2 ^ (i + 1) := by
        rw [← Nat.mod_mod_of_dvd (Uint32 [a, b, c, d]) hdvd,
          ← Nat.mod_mod_of_dvd (Uint32 [a', b', c', d']) hdvd, h]
      rw [hbit, hmod]
    · simp [hi]
  · intro p hp
    have h1 : 31 - p + 1 = 32 - p := by omega
    have h2 : 31 - (31 - p) = p := by omega
    have h3 : decide (32 - 32 ≤ 31 - p ∧ 31 - p < 32) = true := decide_eq_true (by omega)
    rw [Uint32_PutUint32 _ (ipv4Loop_lt cp _ hA 32 (Nat.le_refl 32)),
      ipv4Loop_testBit cp _ hA 32 (Nat.le_refl 32) (31 - p), h1, h2, h3, Bool.true_and]

/-- Witness of C18: 3.168.10.154 and 9.9.10.154 agree on their 16 least
significant bits. -/
theorem AnonymizeIPv4_preserves_suffix_witness :
    ∃ o o', AnonymizeIPv4 testEngine [3, 168, 10, 154] = .ok o ∧
      AnonymizeIPv4 testEngine [9, 9, 10, 154] = .ok o' ∧
      Uint32 o % 2 ^ 16 = Uint32 o' % 2 ^ 16 ∧
      ∀ p, p < 32 → (Uint32 o).testBit (31 - p)
        = ((Uint32 [3, 168, 10, 154]).testBit (31 - p)
            || decide (cipherBit testEngine.rijndael
                (ipv4Input testEngine.first4bytes (Uint32 [3, 168, 10, 154] % 2 ^ (32 - p)) p)
                  = 1)) :=
  AnonymizeIPv4_preserves_suffix testEngine 3 168 10 154 9 9 10 154 16 (by decide)

theorem big.length_bytesLoop_ge (fuel x : Nat) (acc : List Byte) :
    acc.length ≤ (big.bytesLoop fuel x acc).length := by
  induction fuel generalizing x acc with
  | zero => simp [big.bytesLoop]
  | succ fuel ih =>
    unfold big.bytesLoop
    by_cases hx : x = 0
    · simp [hx]
    · rw [if_neg hx]
      have := ih (x / 256) (toByte x :: acc)
      simp only [List.length_cons] at this
      omega

theorem big.length_bytesLoop_le (n fuel x : Nat) (acc : List Byte) (hf : x ≤ fuel)
    (hx : x < 256 ^ n) : (big.bytesLoop fuel x acc).length ≤ acc.length + n := by
  induction fuel generalizing x acc n with
  | zero => simp [big.bytesLoop]
  | succ fuel ih =>
    unfold big.bytesLoop
    by_cases h0 : x = 0
    · simp [h0]
    · rw [if_neg h0]
      cases n with
      | zero =>
        simp only [Nat.pow_zero] at hx
        omega
      | succ m =>
        have hdiv : x / 256 < 256 ^ m := by
          rw [Nat.pow_succ] at hx
          exact Nat.div_lt_of_lt_mul (by rw [Nat.mul_comm]; exact hx)
        have := ih m (x / 256) (toByte x :: acc) (by omega) hdiv
        simp only [List.length_cons] at this
        omega

theorem big.length_bytesLoop_gt (n fuel x : Nat) (acc : List Byte) (hf : x ≤ fuel)
    (hx : 256 ^ n ≤ x) : acc.length + n < (big.bytesLoop fuel x acc).length := by
  induction fuel generalizing x acc n with
  | zero =>
    have hpos : 0 < 256 ^ n := Nat.pow_pos (by decide)
    omega
  | succ fuel ih =>
    have hpos : 0 < 256 ^ n := Nat.pow_pos (by decide)
    unfold big.bytesLoop
    rw [if_neg (by omega)]
    cases n with
    | zero =>
      have := big.length_bytesLoop_ge fuel (x / 256) (toByte x :: acc)
      simp only [List.length_cons] at this
      omega
    | succ m =>
      have hdiv : 256 ^ m ≤ x / 256 := by
        rw [Nat.pow_succ] at hx
        exact (Nat.le_div_iff_mul_le (by decide)).mpr hx
      have := ih m (x / 256) (toByte x :: acc) (by omega) hdiv
      simp only [List.length_cons] at this
      omega

theorem big.length_Bytes_le (n x : Nat) (hx : x < 256 ^ n) : (big.Bytes x).length ≤ n := by
  have := big.length_bytesLoop_le n x x [] (Nat.le_refl x) hx
  simpa [big.Bytes] using this

theorem big.length_Bytes_gt (n x : Nat) (hx : 256 ^ n ≤ x) : n < (big.Bytes x).length := by
  have := big.length_bytesLoop_gt n x x [] (Nat.le_refl x) hx
  simpa [big.Bytes] using this

theorem eight_ff_of_beValue (l : List Byte) (hl : l.length = 8)
    (hv : beValue l = 18446744073709551615) : l = List.replicate 8 0xff := by
  match l, hl with
  | [b0, b1, b2, b3, b4, b5, b6, b7], _ =>
    have h0 := b0.isLt
    have h1 := b1.isLt
    have h2 := b2.isLt
    have h3 := b3.isLt
    have h4 := b4.isLt
    have h5 := b5.isLt
    have h6 := b6.isLt
    have h7 := b7.isLt
    simp only [beValue, List.foldl_cons, List.foldl_nil] at hv
    have e0 : b0 = 0xff := Fin.ext (by show b0.val = 255; omega)
    have e1 : b1 = 0xff := Fin.ext (by show b1.val = 255; omega)
    have e2 : b2 = 0xff := Fin.ext (by show b2.val = 255; omega)
    have e3 : b3 = 0xff := Fin.ext (by show b3.val = 255; omega)
    have e4 : b4 = 0xff := Fin.ext (by show b4.val = 255; omega)
    have e5 : b5 = 0xff := Fin.ext (by show b5.val = 255; omega)
    have e6 : b6 = 0xff := Fin.ext (by show b6.val = 255; omega)
    have e7 : b7 = 0xff := Fin.ext (by show b7.val = 255; omega)
    subst e0 e1 e2 e3 e4 e5 e6 e7
    rfl

/-- A register below `2^64` is returned with eight zero bytes at the end. -/
theorem copyInto_Bytes_small (x : Nat) (hx : x < 2 ^ 64) :
    (copyInto (zeroBytes 16) (big.Bytes x)).drop 8 = List.replicate 8 0 := by
  have hlen : (big.Bytes x).length ≤ 8 :=
    big.length_Bytes_le 8 x (lt_of_lt_of_eq hx (by norm_num))
  unfold copyInto zeroBytes
  rw [List.length_replicate, List.take_of_length_le (by omega), List.drop_replicate,
    List.drop_append_eq_append_drop, List.drop_of_length_le hlen, List.nil_append,
    List.drop_replicate]
  congr 1
  omega

/-- A 128-bit register whose upper 64 bits are all 1 is returned with eight
`0xff` bytes at the front. -/
theorem copyInto_Bytes_ones (x : Nat) (hx : x < 2 ^ 128) (hhi : x / 2 ^ 64 = 2 ^ 64 - 1) :
    (copyInto (zeroBytes 16) (big.Bytes x)).take 8 = List.replicate 8 0xff := by
  have h15 : (256 : Nat) ^ 15 ≤ x := by
    have e15 : (256 : Nat) ^ 15 = 1329227995784915872903807060280344576 := by norm_num
    have e64 : (2 : Nat) ^ 64 = 18446744073709551616 := by norm_num
    rw [e64] at hhi
    rw [e15]
    omega
  have hle : (big.Bytes x).length ≤ 16 :=
    big.length_Bytes_le 16 x (lt_of_lt_of_eq hx (by norm_num))
  have hgt : 15 < (big.Bytes x).length := big.length_Bytes_gt 15 x h15
  have hlen : (big.Bytes x).length = 16 := by omega
  have hcopy : copyInto (zeroBytes 16) (big.Bytes x) = big.Bytes x := by
    unfold copyInto zeroBytes
    rw [List.length_replicate, List.take_of_length_le (by omega), List.drop_replicate, hlen]
    simp
  rw [hcopy]
  apply eight_ff_of_beValue
  · simp [hlen]
  · have hsplit : big.Bytes x = (big.Bytes x).take 8 ++ (big.Bytes x).drop 8 :=
      (List.take_append_drop 8 _).symm
    have hdl : ((big.Bytes x).drop 8).length = 8 := by simp [hlen]
    have hlt := beValue_lt ((big.Bytes x).drop 8)
    rw [hdl] at hlt
    have hv : x = beValue ((big.Bytes x).take 8) * 256 ^ 8 + beValue ((big.Bytes x).drop 8) := by
      have hb := big.beValue_Bytes x
      rw [hsplit, beValue_append, hdl] at hb
      exact hb.symm
    have e8 : (256 : Nat) ^ 8 = 18446744073709551616 := by norm_num
    have e64 : (2 : Nat) ^ 64 = 18446744073709551616 := by norm_num
    rw [e8] at hv hlt
    rw [e64] at hhi
    omega

theorem ipv6Input_early (cp : CryptoPAn) (hwf : cp.WellFormed) (a p : Nat) (hp : p ≤ 64) :
    ipv6Input cp.first4bytes (ipv6Loop cp a p) p = ipv6Input cp.first4bytes a 0 := by
  have hf : cp.first4bytes < 2 ^ 32 := lt_of_lt_of_eq hwf.1 (by norm_num)
  have hz : ∀ s, 32 ≤ s → cp.first4bytes >>> s = 0 := by
    intro s hs
    rw [Nat.shiftRight_eq_div_pow]
    exact Nat.div_eq_of_lt (Nat.lt_of_lt_of_le hf (Nat.pow_le_pow_right (by decide) hs))
  apply ipv6Input_congr
  · rw [hz (128 - p) (by omega), hz (128 - 0) (by omega)]
  · intro i hi
    rw [ipv6Loop_testBit cp a p (by omega) i, if_neg (by omega)]

theorem ipv6Loop_top_bits (cp : CryptoPAn) (hwf : cp.WellFormed) (a j : Nat) (h1 : 63 ≤ j)
    (h2 : j < 128) :
    (ipv6Loop cp a 128).testBit j
      = decide (cipherBit cp.rijndael (ipv6Input cp.first4bytes a 0) = 1) := by
  rw [ipv6Loop_testBit cp a 128 (Nat.le_refl 128) j, if_pos (by omega),
    ipv6Input_early cp hwf a (127 - j) (by omega)]

theorem ipv6Loop_lt (cp : CryptoPAn) (a : Nat) (ha : a < 2 ^ 128) :
    ipv6Loop cp a 128 < 2 ^ 128 := by
  apply Nat.lt_pow_two_of_testBit
  intro i hi
  rw [ipv6Loop_testBit cp a 128 (Nat.le_refl 128) i, if_neg (by omega)]
  exact Nat.testBit_lt_two_pow (Nat.lt_of_lt_of_le ha (Nat.pow_le_pow_right (by decide) hi))

/-- C20: for every engine (its `first4bytes` being a `uint32`) and every
16-byte input, `AnonymizeIPv6` hands the cipher the same block in the turns
for the positions 0 to 64, so the bits 127 down to 63 of the final register,
its 65 most significant bits, are all equal, and the 16 bytes returned begin
with eight `0xff` bytes or end with eight zero bytes. -/
theorem AnonymizeIPv6_top_65_bits_equal (cp : CryptoPAn) (ip : List Byte)
    (hwf : cp.WellFormed) (h : ip.length = 16) :
    (∀ p, p ≤ 64 →
      ipv6Input cp.first4bytes (ipv6Loop cp (big.SetBytes ip) p) p
        = ipv6Input cp.first4bytes (big.SetBytes ip) 0) ∧
    (∀ j, 63 ≤ j → j < 128 →
      (ipv6Loop cp (big.SetBytes ip) 128).testBit j
        = (ipv6Loop cp (big.SetBytes ip) 128).testBit 127) ∧
    ∃ out, AnonymizeIPv6 cp ip = .ok out ∧
      (out.take 8 = List.replicate 8 0xff ∨ out.drop 8 = List.replicate 8 0) := by
  have ha : big.SetBytes ip < 2 ^ 128 := beValue_lt_of_length_16 ip h
  have hx := ipv6Loop_lt cp (big.SetBytes ip) ha
  refine ⟨fun p hp => ipv6Input_early cp hwf _ p hp, ?_, _, AnonymizeIPv6_sixteen cp ip h, ?_⟩
  · intro j h1 h2
    rw [ipv6Loop_top_bits cp hwf _ j h1 h2, ipv6Loop_top_bits cp hwf _ 127 (by omega) (by omega)]
  · cases hc : decide (cipherBit cp.rijndael (ipv6Input cp.first4bytes (big.SetBytes ip) 0) = 1)
    · right
      apply copyInto_Bytes_small
      have h63 : ipv6Loop cp (big.SetBytes ip) 128 < 2 ^ 63 := by
        apply Nat.lt_pow_two_of_testBit
        intro i hi
        by_cases h128 : i < 128
        · rw [ipv6Loop_top_bits cp hwf _ i hi h128, hc]
        · exact Nat.testBit_lt_two_pow
            (Nat.lt_of_lt_of_le hx (Nat.pow_le_pow_right (by decide) (by omega)))
      exact Nat.lt_trans h63 (by norm_num)
    · left
      apply copyInto_Bytes_ones _ hx
      rw [← Nat.shiftRight_eq_div_pow]
      apply Nat.eq_of_testBit_eq
      intro i
      rw [Nat.testBit_shiftRight, Nat.testBit_two_pow_sub_one]
      by_cases hi : i < 64
      · rw [ipv6Loop_top_bits cp hwf _ (64 + i) (by omega) (by omega), hc]
        simp [hi]
      · rw [Nat.testBit_lt_two_pow
          (Nat.lt_of_lt_of_le hx (Nat.pow_le_pow_right (by decide) (by omega)))]
        simp [hi]

theorem testEngine_WellFormed : testEngine.WellFormed := by
  show testEngine.first4bytes < 4294967296 ∧ testEngine.first4bytes2 < 18446744073709551616
  decide!

/-- Witness of C20: the engine and the IPv6 address of the tests. -/
theorem AnonymizeIPv6_top_65_bits_equal_witness :
    (∀ p, p ≤ 64 →
      ipv6Input testEngine.first4bytes (ipv6Loop testEngine (big.SetBytes testAddr6) p) p
        = ipv6Input testEngine.first4bytes (big.SetBytes testAddr6) 0) ∧
    (∀ j, 63 ≤ j → j < 128 →
      (ipv6Loop testEngine (big.SetBytes testAddr6) 128).testBit j
        = (ipv6Loop testEngine (big.SetBytes testAddr6) 128).testBit 127) ∧
    ∃ out, AnonymizeIPv6 testEngine testAddr6 = .ok out ∧
      (out.take 8 = List.replicate 8 0xff ∨ out.drop 8 = List.replicate 8 0) :=
  AnonymizeIPv6_top_65_bits_equal testEngine testAddr6 testEngine_WellFormed rfl



/-! ## The methods on memory against the methods on values -/

theorem Heap.make_eq (h : Heap) (n : Nat) :
    h.make n = (⟨h.blocks.length, 0, n⟩, ⟨h.blocks ++ [zeroBytes n]⟩) := rfl

/-- A write through the slice over the newest allocation changes that
allocation alone. -/
theorem Heap.store_last (bs : List (List Byte)) (c : List Byte) (n i : Nat) (x : List Byte) :
    Heap.store ⟨bs ++ [c]⟩ ⟨bs.length, 0, n⟩ i x = ⟨bs ++ [writeAt c i x]⟩ := by
  simp [Heap.store, List.getD_append_right]

theorem Heap.read_last (bs : List (List Byte)) (c : List Byte) (n : Nat) :
    Heap.read ⟨bs ++ [c]⟩ ⟨bs.length, 0, n⟩ = c.take n := by
  simp [Heap.read, List.getD_append_right]

theorem Heap.read_append (bs t : List (List Byte)) (s : Slice) (h : s.blk < bs.length) :
    Heap.read ⟨bs ++ t⟩ s = Heap.read ⟨bs⟩ s := by
  simp only [Heap.read]
  rw [List.getD_append _ _ _ _ h]

theorem writeAt_zero_take (c src : List Byte) :
    writeAt c 0 (src.take c.length) = copyInto c src := by
  unfold writeAt copyInto
  simp only [List.take_zero, List.nil_append, Nat.zero_add, List.length_take]
  congr 1
  by_cases h : src.length ≤ c.length
  · rw [Nat.min_eq_right h]
  · have h1 : c.length ≤ src.length := by omega
    rw [Nat.min_eq_left h1, List.drop_of_length_le (Nat.le_refl _), List.drop_of_length_le h1]

/-- A `copy` into the slice over the whole of the newest allocation is the
`copy` of the values. -/
theorem Heap.copy_last (bs : List (List Byte)) (c src : List Byte) :
    Heap.copy ⟨bs ++ [c]⟩ ⟨bs.length, 0, c.length⟩ src = ⟨bs ++ [copyInto c src]⟩ := by
  unfold Heap.copy
  rw [Heap.store_last, writeAt_zero_take]

theorem length_ipv4Input (f r p : Nat) : (ipv4Input f r p).length = 16 := by
  simp [ipv4Input, writeAt, zeroBytes, PutUint32]

theorem length_ipv6Input (f r p : Nat) : (ipv6Input f r p).length = 16 := by
  simp [ipv6Input, writeAt, zeroBytes, PutUint64]

theorem EncryptM_last (b : Block) (bs : List (List Byte)) (c : List Byte) (hc : c.length = 16) :
    EncryptM b ⟨bs ++ [c]⟩ ⟨bs.length, 0, 16⟩ ⟨bs.length, 0, 16⟩
      = ⟨bs ++ [Block.Encrypt b c c]⟩ := by
  unfold EncryptM Block.Encrypt
  rw [Heap.read_last, List.take_take, Nat.min_self]
  have h := Heap.copy_last bs c ((b (c.take 16)).take 16)
  rw [hc] at h
  exact h

theorem length_Block_Encrypt (b : Block) (c src : List Byte) :
    (Block.Encrypt b c src).length = c.length := by
  unfold Block.Encrypt
  exact length_copyInto _ _

/-- One turn of the IPv4 loop on memory adds one allocation, the encrypted
block, leaves the engine as it was and computes the `result` of `ipv4Step`. -/
theorem ipv4TurnM_eq (s : State) (cp : CryptoPAn) (hf : cp.first4bytes = s.cp.first4bytes)
    (hr : cp.rijndael = s.cp.rijndael) (r p : Nat) :
    ipv4TurnM (s, r) p
      = (⟨⟨s.heap.blocks ++ [Block.Encrypt s.cp.rijndael (ipv4Input s.cp.first4bytes r p)
              (ipv4Input s.cp.first4bytes r p)]⟩, s.cp⟩, ipv4Step cp r p) := by
  have hin : writeAt (writeAt (zeroBytes 16) 0 [toByte (s.cp.first4bytes >>> 24)]) 1
      (PutUint32 (((r <<< p) ||| (s.cp.first4bytes >>> (32 - p))) % 4294967296))
      = ipv4Input s.cp.first4bytes r p := rfl
  unfold ipv4TurnM
  simp only [Heap.make_eq, Heap.store_last, hin]
  rw [EncryptM_last _ _ _ (length_ipv4Input _ _ _), Heap.read_last,
    List.take_of_length_le (by rw [length_Block_Encrypt, length_ipv4Input])]
  rw [ipv4Step_eq, hf, hr]
  rfl

theorem ipv6TurnM_eq (s : State) (cp : CryptoPAn) (hf : cp.first4bytes = s.cp.first4bytes)
    (hr : cp.rijndael = s.cp.rijndael) (r p : Nat) :
    ipv6TurnM (s, r) p
      = (⟨⟨s.heap.blocks ++ [Block.Encrypt s.cp.rijndael (ipv6Input s.cp.first4bytes r p)
              (ipv6Input s.cp.first4bytes r p)]⟩, s.cp⟩, ipv6Step cp r p) := by
  have hin : writeAt (writeAt (zeroBytes 16) 0 [toByte (s.cp.first4bytes >>> 24)]) 8
      (PutUint64 (big.Uint64 (big.Or (big.Lsh 0 r p) r (big.Rsh 0 s.cp.first4bytes (128 - p)))))
      = ipv6Input s.cp.first4bytes r p := rfl
  unfold ipv6TurnM
  simp only [Heap.make_eq, Heap.store_last, hin]
  rw [EncryptM_last _ _ _ (length_ipv6Input _ _ _), Heap.read_last,
    List.take_of_length_le (by rw [length_Block_Encrypt, length_ipv6Input])]
  rw [ipv6Step_eq, hf, hr]
  rfl

theorem ipv4LoopM_eq (s : State) (cp : CryptoPAn) (hf : cp.first4bytes = s.cp.first4bytes)
    (hr : cp.rijndael = s.cp.rijndael) (r n : Nat) :
    ∃ fresh, (List.range n).foldl ipv4TurnM (s, r)
      = (⟨⟨s.heap.blocks ++ fresh⟩, s.cp⟩, ipv4Loop cp r n) := by
  induction n with
  | zero => exact ⟨[], by simp [ipv4Loop]⟩
  | succ n ih =>
    obtain ⟨fresh, hfresh⟩ := ih
    rw [List.range_succ, List.foldl_append, hfresh, List.foldl_cons, List.foldl_nil,
      ipv4TurnM_eq ⟨⟨s.heap.blocks ++ fresh⟩, s.cp⟩ cp hf hr, ipv4Loop_succ]
    exact ⟨fresh ++ [Block.Encrypt s.cp.rijndael
      (ipv4Input s.cp.first4bytes (ipv4Loop cp r n) n)
      (ipv4Input s.cp.first4bytes (ipv4Loop cp r n) n)], by simp⟩

theorem ipv6LoopM_eq (s : State) (cp : CryptoPAn) (hf : cp.first4bytes = s.cp.first4bytes)
    (hr : cp.rijndael = s.cp.rijndael) (r n : Nat) :
    ∃ fresh, (List.range n).foldl ipv6TurnM (s, r)
      = (⟨⟨s.heap.blocks ++ fresh⟩, s.cp⟩, ipv6Loop cp r n) := by
  induction n with
  | zero => exact ⟨[], by simp [ipv6Loop]⟩
  | succ n ih =>
    obtain ⟨fresh, hfresh⟩ := ih
    rw [List.range_succ, List.foldl_append, hfresh, List.foldl_cons, List.foldl_nil,
      ipv6TurnM_eq ⟨⟨s.heap.blocks ++ fresh⟩, s.cp⟩ cp hf hr, ipv6Loop_succ]
    exact ⟨fresh ++ [Block.Encrypt s.cp.rijndael
      (ipv6Input s.cp.first4bytes (ipv6Loop cp r n) n)
      (ipv6Input s.cp.first4bytes (ipv6Loop cp r n) n)], by simp⟩

theorem Heap.length_read (h : Heap) (s : Slice) (hv : h.Valid s) : (h.read s).length = s.len := by
  have h2 := hv.2
  simp only [Heap.read, List.length_take, List.length_drop]
  omega

/-- On a slice that lies in memory, `To4` on memory returns the slice whose
bytes `To4` on values returns. -/
theorem To4M_read (h : Heap) (ip : Slice) (hv : h.Valid ip) :
    (To4M h ip).map h.read = To4 (h.read ip) := by
  have hlen := Heap.length_read h ip hv
  unfold To4M To4
  rw [hlen]
  by_cases h4 : ip.len = 4
  · rw [if_pos h4, if_pos h4]
    rfl
  · rw [if_neg h4, if_neg h4]
    by_cases hc : ip.len = 16 ∧ isZeros ((h.read ip).take 10) = true
        ∧ (h.read ip).getD 10 0 = 0xff ∧ (h.read ip).getD 11 0 = 0xff
    · rw [if_pos hc, if_pos hc]
      have h16 := hc.1
      simp only [Option.map, Heap.read, h16, List.drop_take, List.drop_drop]
    · rw [if_neg hc, if_neg hc]
      rfl

theorem To4M_eq_none_iff (h : Heap) (ip : Slice) (hv : h.Valid ip) :
    To4M h ip = none ↔ To4 (h.read ip) = none := by
  rw [← To4M_read h ip hv]
  cases To4M h ip <;> simp

theorem To4M_valid (h : Heap) (ip x : Slice) (hx : To4M h ip = some x) :
    x.blk = ip.blk := by
  unfold To4M at hx
  by_cases h4 : ip.len = 4
  · rw [if_pos h4] at hx
    cases hx
    rfl
  · rw [if_neg h4] at hx
    by_cases hc : ip.len = 16 ∧ isZeros ((h.read ip).take 10) = true
        ∧ (h.read ip).getD 10 0 = 0xff ∧ (h.read ip).getD 11 0 = 0xff
    · rw [if_pos hc] at hx
      cases hx
      rfl
    · rw [if_neg hc] at hx
      cases hx

theorem IPv4M_eq (h : Heap) (a b c d : Byte) :
    IPv4M h a b c d = (⟨h.blocks.length, 0, 16⟩, ⟨h.blocks ++ [IPv4 a b c d]⟩) := by
  have hcopy := Heap.copy_last h.blocks (zeroBytes 16) [0, 0, 0, 0, 0, 0, 0, 0, 0, 0, 0xff, 0xff]
  have h16 : (zeroBytes 16).length = 16 := rfl
  rw [h16] at hcopy
  unfold IPv4M
  simp only [Heap.make_eq, hcopy, Heap.store_last]
  rfl

/-- `AnonymizeIPv4` on memory only adds allocations, leaves the engine as it
was, and returns a slice holding the bytes `AnonymizeIPv4` on values
returns. -/
theorem AnonymizeIPv4M_spec (s : State) (ip : Slice) (hv : s.heap.Valid ip) :
    ∃ fresh, (AnonymizeIPv4M s ip).2 = ⟨⟨s.heap.blocks ++ fresh⟩, s.cp⟩ ∧
      (AnonymizeIPv4M s ip).1.map (Heap.read ⟨s.heap.blocks ++ fresh⟩)
        = AnonymizeIPv4 s.engine (s.heap.read ip) ∧
      ∀ out, (AnonymizeIPv4M s ip).1 = .ok out → out.blk < (s.heap.blocks ++ fresh).length := by
  cases hto : To4M s.heap ip with
  | none =>
    have hpure : To4 (s.heap.read ip) = none := (To4M_eq_none_iff s.heap ip hv).mp hto
    refine ⟨[], ?_, ?_, ?_⟩
    · simp [AnonymizeIPv4M, hto]
    · rw [AnonymizeIPv4_of_none _ _ hpure]
      simp [AnonymizeIPv4M, hto, Except.map]
    · intro out hout
      simp [AnonymizeIPv4M, hto] at hout
  | some x =>
    have hpure : To4 (s.heap.read ip) = some (s.heap.read x) := by
      rw [← To4M_read s.heap ip hv, hto]
      rfl
    obtain ⟨fresh, hfresh⟩ := ipv4LoopM_eq s s.engine rfl rfl (Uint32 (s.heap.read x)) 32
    have hcall : AnonymizeIPv4M s ip
        = (.ok ⟨(s.heap.blocks ++ fresh).length, 0, 4⟩,
           ⟨⟨s.heap.blocks ++ fresh
              ++ [writeAt (zeroBytes 4) 0
                    (PutUint32 (ipv4Loop s.engine (Uint32 (s.heap.read x)) 32))]⟩, s.cp⟩) := by
      simp only [AnonymizeIPv4M, hto, hfresh, Heap.make_eq, Heap.store_last]
    refine ⟨fresh ++ [writeAt (zeroBytes 4) 0
      (PutUint32 (ipv4Loop s.engine (Uint32 (s.heap.read x)) 32))], ?_, ?_, ?_⟩
    · rw [hcall, List.append_assoc]
    · rw [hcall, AnonymizeIPv4_of_To4 _ _ _ hpure]
      simp only [Except.map, ← List.append_assoc, Heap.read_last]
      rfl
    · intro out hout
      rw [hcall] at hout
      cases hout
      simp

/-- `To16` on memory adds at most one allocation and returns a slice holding
the bytes `To16` on values returns. -/
theorem To16M_spec (h : Heap) (ip : Slice) (hv : h.Valid ip) :
    ∃ pre, (To16M h ip).2 = ⟨h.blocks ++ pre⟩ ∧
      (To16M h ip).1.map (Heap.read ⟨h.blocks ++ pre⟩) = To16 (h.read ip) ∧
      ∀ x, (To16M h ip).1 = some x → x.blk < (h.blocks ++ pre).length := by
  have hlen := Heap.length_read h ip hv
  unfold To16M To16
  rw [hlen]
  by_cases h4 : ip.len = 4
  · rw [if_pos h4, if_pos h4]
    simp only [IPv4M_eq]
    refine ⟨[IPv4 ((h.read ip).getD 0 0) ((h.read ip).getD 1 0) ((h.read ip).getD 2 0)
      ((h.read ip).getD 3 0)], rfl, ?_, ?_⟩
    · simp only [Option.map, Heap.read_last]
      rfl
    · intro x hx
      cases hx
      simp
  · rw [if_neg h4, if_neg h4]
    by_cases h16 : ip.len = 16
    · rw [if_pos h16, if_pos h16]
      refine ⟨[], by simp, ?_, ?_⟩
      · simp [Option.map]
      · intro x hx
        cases hx
        simpa using hv.1
    · rw [if_neg h16, if_neg h16]
      exact ⟨[], by simp, rfl, fun x hx => by cases hx⟩

/-- `AnonymizeIPv6` on memory only adds allocations, leaves the engine as it
was, and returns a slice holding the bytes `AnonymizeIPv6` on values
returns. -/
theorem AnonymizeIPv6M_spec (s : State) (ip : Slice) (hv : s.heap.Valid ip) :
    ∃ fresh, (AnonymizeIPv6M s ip).2 = ⟨⟨s.heap.blocks ++ fresh⟩, s.cp⟩ ∧
      (AnonymizeIPv6M s ip).1.map (Heap.read ⟨s.heap.blocks ++ fresh⟩)
        = AnonymizeIPv6 s.engine (s.heap.read ip) ∧
      ∀ out, (AnonymizeIPv6M s ip).1 = .ok out → out.blk < (s.heap.blocks ++ fresh).length := by
  obtain ⟨pre, hpre, hmap, -⟩ := To16M_spec s.heap ip hv
  rcases hto : To16M s.heap ip with ⟨o, h'⟩
  rw [hto] at hpre hmap
  simp only at hpre hmap
  subst hpre
  cases o with
  | none =>
    have hpure : To16 (s.heap.read ip) = none := by
      rw [← hmap]
      rfl
    refine ⟨[], ?_, ?_, ?_⟩
    · simp [AnonymizeIPv6M, hto]
    · rw [AnonymizeIPv6_of_none _ _ hpure]
      simp [AnonymizeIPv6M, hto, Except.map]
    · intro out hout
      simp [AnonymizeIPv6M, hto] at hout
  | some x =>
    have hpure : To16 (s.heap.read ip) = some (Heap.read ⟨s.heap.blocks ++ pre⟩ x) := by
      rw [← hmap]
      rfl
    obtain ⟨fresh, hfresh⟩ :=
      ipv6LoopM_eq ⟨⟨s.heap.blocks ++ pre⟩, s.cp⟩ s.engine rfl rfl
        (big.SetBytes (Heap.read ⟨s.heap.blocks ++ pre⟩ x)) 128
    have hcopy := Heap.copy_last (s.heap.blocks ++ pre ++ fresh) (zeroBytes 16)
      (big.Bytes (ipv6Loop s.engine (big.SetBytes (Heap.read ⟨s.heap.blocks ++ pre⟩ x)) 128))
    have h16 : (zeroBytes 16).length = 16 := rfl
    rw [h16] at hcopy
    have hcall : AnonymizeIPv6M s ip
        = (.ok ⟨(s.heap.blocks ++ pre ++ fresh).length, 0, 16⟩,
           ⟨⟨s.heap.blocks ++ pre ++ fresh
              ++ [copyInto (zeroBytes 16) (big.Bytes (ipv6Loop s.engine
                    (big.SetBytes (Heap.read ⟨s.heap.blocks ++ pre⟩ x)) 128))]⟩, s.cp⟩) := by
      simp only [AnonymizeIPv6M, hto, hfresh, Heap.make_eq, hcopy]
    refine ⟨pre ++ fresh ++ [copyInto (zeroBytes 16) (big.Bytes (ipv6Loop s.engine
      (big.SetBytes (Heap.read ⟨s.heap.blocks ++ pre⟩ x)) 128))], ?_, ?_, ?_⟩
    · rw [hcall]
      simp only [List.append_assoc]
    · rw [hcall, AnonymizeIPv6_of_To16 _ _ _ hpure]
      simp only [Except.map, ← List.append_assoc, Heap.read_last]
      rw [List.take_of_length_le (by rw [length_copyInto]; exact Nat.le_refl 16)]
      rfl
    · intro out hout
      rw [hcall] at hout
      cases hout
      simp only [List.length_append, List.length_cons, List.length_nil]
      omega

/-- `Anonymize` on memory only adds allocations, leaves the engine as it was,
and returns a slice holding the bytes `Anonymize` on values returns. -/
theorem AnonymizeM_spec (s : State) (ip : Slice) (hv : s.heap.Valid ip) :
    ∃ fresh, (AnonymizeM s ip).2 = ⟨⟨s.heap.blocks ++ fresh⟩, s.cp⟩ ∧
      (AnonymizeM s ip).1.map (Heap.read ⟨s.heap.blocks ++ fresh⟩)
        = Anonymize s.engine (s.heap.read ip) ∧
      ∀ out, (AnonymizeM s ip).1 = .ok out → out.blk < (s.heap.blocks ++ fresh).length := by
  unfold AnonymizeM Anonymize
  by_cases hto : To4M s.heap ip = none
  · rw [if_pos hto, if_pos ((To4M_eq_none_iff s.heap ip hv).mp hto)]
    exact AnonymizeIPv6M_spec s ip hv
  · rw [if_neg hto, if_neg (fun hc => hto ((To4M_eq_none_iff s.heap ip hv).mpr hc))]
    exact AnonymizeIPv4M_spec s ip hv

theorem Anonymize_congr (cp cp' : CryptoPAn) (hf : cp.first4bytes = cp'.first4bytes)
    (hr : cp.rijndael = cp'.rijndael) (ip : List Byte) : Anonymize cp ip = Anonymize cp' ip := by
  have h4 : ipv4Step cp = ipv4Step cp' := by
    funext r p
    rw [ipv4Step_eq, ipv4Step_eq, hf, hr]
  have h6 : ipv6Step cp = ipv6Step cp' := by
    funext r p
    rw [ipv6Step_eq, ipv6Step_eq, hf, hr]
  unfold Anonymize AnonymizeIPv4 AnonymizeIPv6
  rw [h4, h6]

theorem Heap.Valid_append (bs t : List (List Byte)) (s : Slice) (hv : Heap.Valid ⟨bs⟩ s) :
    Heap.Valid ⟨bs ++ t⟩ s := by
  have h1 : s.blk < bs.length := hv.1
  have h2 : s.off + s.len ≤ (bs.getD s.blk []).length := hv.2
  refine ⟨?_, ?_⟩
  · show s.blk < (bs ++ t).length
    rw [List.length_append]
    omega
  · show s.off + s.len ≤ ((bs ++ t).getD s.blk []).length
    rw [List.getD_append _ _ _ _ h1]
    exact h2

/-- C11: `Anonymize` is deterministic and has no effect on the engine. The
methods are run on Go memory, every `make`, assignment, `PutUint32`/
`PutUint64`, `copy` and `Encrypt` being a write to the allocation it targets.
For every state and every address slice that lies in memory: a call leaves the
engine `*cp` (with it `first4bytes` and the cipher) as it was and only adds
allocations, so the key buffer and the caller's address keep their bytes; it
returns the bytes (or the error) of `Anonymize` on values; and a second call
on the state the first one left returns the same bytes or the same error,
again without touching the engine or the first result. -/
theorem Anonymize_deterministic (s : State) (ip : Slice) (hv : s.heap.Valid ip) :
    (AnonymizeM s ip).2.cp = s.cp ∧
    (∃ fresh, (AnonymizeM s ip).2.heap.blocks = s.heap.blocks ++ fresh) ∧
    (AnonymizeM s ip).1.map (AnonymizeM s ip).2.heap.read
      = Anonymize s.engine (s.heap.read ip) ∧
    (AnonymizeM (AnonymizeM s ip).2 ip).1.map (AnonymizeM (AnonymizeM s ip).2 ip).2.heap.read
      = (AnonymizeM s ip).1.map (AnonymizeM s ip).2.heap.read ∧
    (AnonymizeM (AnonymizeM s ip).2 ip).2.cp = s.cp ∧
    (AnonymizeM s ip).1.map (AnonymizeM (AnonymizeM s ip).2 ip).2.heap.read
      = (AnonymizeM s ip).1.map (AnonymizeM s ip).2.heap.read := by
  obtain ⟨f1, hs1, hr1, ho1⟩ := AnonymizeM_spec s ip hv
  have hv1 : (AnonymizeM s ip).2.heap.Valid ip := by
    rw [hs1]
    exact Heap.Valid_append _ _ _ hv
  obtain ⟨f2, hs2, hr2, -⟩ := AnonymizeM_spec (AnonymizeM s ip).2 ip hv1
  have hread : (AnonymizeM s ip).2.heap.read ip = s.heap.read ip := by
    rw [hs1]
    exact Heap.read_append _ _ _ hv.1
  have hcp : (AnonymizeM s ip).2.cp = s.cp := by rw [hs1]
  have hh1 : (AnonymizeM s ip).2.heap = ⟨s.heap.blocks ++ f1⟩ := by rw [hs1]
  have hh2 : (AnonymizeM (AnonymizeM s ip).2 ip).2.heap
      = ⟨(AnonymizeM s ip).2.heap.blocks ++ f2⟩ := by rw [hs2]
  have hfirst : (AnonymizeM s ip).1.map (AnonymizeM s ip).2.heap.read
      = Anonymize s.engine (s.heap.read ip) := by
    rw [hh1]
    exact hr1
  refine ⟨hcp, ⟨f1, by rw [hh1]⟩, hfirst, ?_, ?_, ?_⟩
  · rw [hfirst, hh2, hr2, hread]
    exact Anonymize_congr _ _ (by show (AnonymizeM s ip).2.cp.first4bytes = _; rw [hcp]; rfl)
      (by show (AnonymizeM s ip).2.cp.rijndael = _; rw [hcp]; rfl) _
  · rw [hs2, hcp]
  · rw [hh2, hh1]
    cases hout : (AnonymizeM s ip).1 with
    | error e => rfl
    | ok out =>
      have hlt := ho1 out hout
      simp only [Except.map]
      rw [Heap.read_append _ _ _ hlt]

/-- Witness of C11: the state of the tests and the slice over its allocation
1, the address 3.168.10.154. -/
theorem Anonymize_deterministic_witness :
    testState.heap.Valid ⟨1, 0, 4⟩ ∧
    (AnonymizeM testState ⟨1, 0, 4⟩).2.cp = testState.cp ∧
    (AnonymizeM (AnonymizeM testState ⟨1, 0, 4⟩).2 ⟨1, 0, 4⟩).1.map
        (AnonymizeM (AnonymizeM testState ⟨1, 0, 4⟩).2 ⟨1, 0, 4⟩).2.heap.read
      = (AnonymizeM testState ⟨1, 0, 4⟩).1.map (AnonymizeM testState ⟨1, 0, 4⟩).2.heap.read :=
  ⟨⟨by decide, by decide⟩,
   (Anonymize_deterministic testState ⟨1, 0, 4⟩ ⟨by decide, by decide⟩).1,
   (Anonymize_deterministic testState ⟨1, 0, 4⟩ ⟨by decide, by decide⟩).2.2.2.1⟩


end CryptoPAN
